import Mathlib

/-!
# Lab 5, task 1: CSV-like serialisation of `Person` records

A shallow embedding of `src/lab5/task1/main.cpp`.

* Text (`std::string`, `std::string_view`, stream contents) is a `List Char`.
* `int` is an `Int` together with the 32-bit range `INT_MIN .. INT_MAX`.
* Output is recorded as a trace of `Event`s, one per output statement of the
  source; `written s tr` is the text that the trace `tr` puts on the stream `s`.
* `std::array<char, 20>` is a 20-cell array whose cells are `none` while their
  value is indeterminate.  An access outside the array, or a read of an
  indeterminate cell, is a `Fault` (undefined behaviour in C++).
* The `std::string_view` that `deserializeGender` indexes is a `StringView`: its
  characters and the character stored right behind them, if any.  Reading
  `buffer[0]` of an empty view reads that character (the terminator of a C
  string); with no character stored there the read is a `Fault`.
-/

namespace Lab5

/-! ## Data model -/

/-- The C++ type `enum class Gender`. -/
inductive Gender where
  | Boy
  | Girl
  deriving DecidableEq, Repr

/-- The C++ type `enum class StringSerializationError`. -/
inductive StringSerializationError where
  | Success
  | CommaInStringField
  deriving DecidableEq, Repr

/-- Executions without a result: the first two leave the defined behaviour of
C++, the last one is the fuel of the model running out. -/
inductive Fault where
  /-- an element outside the name array (`0 .. 19`) is accessed, or a string
  view is read where no character is stored -/
  | outOfBounds
  /-- an indeterminate (never written) array element is read -/
  | indeterminateRead
  /-- the step budget of a loop of the model ran out -/
  | outOfFuel
  deriving DecidableEq, Repr

deriving instance DecidableEq for Except

/-- The output streams the program writes to: the `std::ostream&` argument of a
serialisation routine when it is a file, `std::cerr` and `std::cout`. -/
inductive Stream where
  | sink
  | cerr
  | cout
  deriving DecidableEq, Repr

/-- Capacity of `Person::name` (`std::array<char, 20>`). -/
def nameCapacity : Nat := 20

/-- The C++ type `std::array<char, 20>`: exactly 20 cells, `none` for an indeterminate value. -/
structure NameArray where
  cells : List (Option Char)
  size_eq : cells.length = nameCapacity
  deriving DecidableEq

/-- The C++ type `struct Person`. -/
structure Person where
  name : NameArray
  form : Int
  gender : Gender
  deriving DecidableEq

def INT_MIN : Int := -2147483648
def INT_MAX : Int := 2147483647

/-- The value fits the C++ type `int`. -/
def isInt32 (v : Int) : Prop := INT_MIN ≤ v ∧ v ≤ INT_MAX

instance (v : Int) : Decidable (isInt32 v) := by
  unfold isInt32; infer_instance

/-- The name array of a default-initialised `Person person;`: every cell is
indeterminate. -/
def NameArray.uninit : NameArray := ⟨List.replicate nameCapacity none, by simp⟩

/-- Aggregate initialisation of the array from a string literal, as in
`Person person1 = { "Lera", 10, Gender::Girl }`: the characters, then zeros. -/
def NameArray.ofLiteral (s : List Char) (h : s.length < nameCapacity) : NameArray :=
  ⟨s.map some ++ List.replicate (nameCapacity - s.length) (some '\x00'),
   by simp [nameCapacity] at *; omega⟩

/-- The assignment `person.name[i] = c`. -/
def NameArray.write (a : NameArray) (i : Nat) (c : Char) : Except Fault NameArray :=
  if h : i < nameCapacity then
    .ok ⟨a.cells.set i (some c), by simp [a.size_eq]⟩
  else
    .error .outOfBounds

/-- The call `std::copy(src.begin(), src.end(), person.name.begin() + i)`: the characters
are stored one after the other from index `i` on. -/
def NameArray.copyFrom (a : NameArray) (i : Nat) : List Char → Except Fault NameArray
  | [] => .ok a
  | c :: rest =>
    match a.write i c with
    | .error e => .error e
    | .ok a1 => a1.copyFrom (i + 1) rest

/-- The scan of `strlen` over the cells of an array. -/
def cStringCells : List (Option Char) → Except Fault (List Char)
  | [] => .error .outOfBounds
  | none :: _ => .error .indeterminateRead
  | some c :: rest =>
    if c = '\x00' then .ok []
    else
      match cStringCells rest with
      | .error e => .error e
      | .ok s => .ok (c :: s)

/-- The view `std::string_view(person.name.data())`: the characters before the first
`'\0'` of the array. -/
def NameArray.cString (a : NameArray) : Except Fault (List Char) :=
  cStringCells a.cells

/-! ## Output traces -/

/-- One output statement of the program. -/
inductive Event where
  /-- the statement `stream << text` -/
  | put (s : Stream) (text : List Char)
  /-- the statement `stream << std::endl` -/
  | endl (s : Stream)
  /-- the diagnostic of `serializeString` -/
  | commaInString
  /-- the diagnostic of `deserializeInt` for `std::invalid_argument` -/
  | stoiInvalid
  /-- the diagnostic of `deserializeInt` for `std::out_of_range` -/
  | stoiOutOfRange
  /-- the diagnostic of `deserializePeople` for a rejected line -/
  | malformedLine (line : List Char)
  deriving DecidableEq

abbrev Trace := List Event

/-- The text of `e.what()` for the exceptions of `std::stoi` (libstdc++). -/
def stoiWhat : List Char := "stoi".toList

/-- The stream an output statement writes to. -/
def Event.target : Event → Stream
  | .put s _ => s
  | .endl s => s
  | .commaInString => .cerr
  | .stoiInvalid => .cerr
  | .stoiOutOfRange => .cerr
  | .malformedLine _ => .cerr

/-- The characters an output statement writes. -/
def Event.text : Event → List Char
  | .put _ t => t
  | .endl _ => ['\n']
  | .commaInString =>
    "Ошибка сериализации строки: строковое поле содержит запятую.".toList ++ ['\n']
  | .stoiInvalid =>
    "Ошибка преобразования строки в число: ".toList ++ stoiWhat ++ ['\n']
  | .stoiOutOfRange =>
    "Ошибка: Число вне диапазона допустимых значений.".toList ++ stoiWhat ++ ['\n']
  | .malformedLine line =>
    "Ошибка десериализации строки: ".toList ++ line ++ ['\n']

/-- The text a trace puts on the stream `s`. -/
def written (s : Stream) : Trace → List Char
  | [] => []
  | e :: rest => if e.target = s then e.text ++ written s rest else written s rest

/-! ## Field codecs -/

/-- The function `serializeString(str, stream)`: the result code and the output. -/
def serializeString (str : List Char) (stream : Stream) : StringSerializationError × Trace :=
  if ',' ∈ str then
    (.CommaInStringField, [.commaInString])
  else
    (.Success, [.put stream str])

/-- The decimal digit character of `d < 10`. -/
def digitChar (d : Nat) : Char := Char.ofNat (48 + d)

/-- Decimal digits of a natural number, most significant first, in front of
`acc`; `fuel` bounds the number of digits. -/
def natDigitsAux : Nat → Nat → List Char → List Char
  | 0, _, acc => acc
  | fuel + 1, n, acc =>
    if n < 10 then digitChar n :: acc
    else natDigitsAux fuel (n / 10) (digitChar (n % 10) :: acc)

/-- Decimal digits of a natural number, without leading zeros (`0` is `"0"`). -/
def natDigits (n : Nat) : List Char := natDigitsAux (n + 1) n []

/-- The text `stream << value` produces for an `int` (default formatting, "C"
locale): a minus sign for a negative value, then the decimal digits. -/
def intText (value : Int) : List Char :=
  if value < 0 then '-' :: natDigits (-value).toNat else natDigits value.toNat

/-- The function `serializeInt(value, stream)`. -/
def serializeInt (value : Int) (stream : Stream) : Trace :=
  [.put stream (intText value)]

/-- The function `serializeGender(gender, stream)`. -/
def serializeGender (gender : Gender) (stream : Stream) : Trace :=
  match gender with
  | .Boy => [.put stream ['B', ',']]
  | .Girl => [.put stream ['G', ',']]

/-! ## Record codec: encoding -/

/-- The function `serializePerson(person, stream)`.  The name is read as a C
string from the array; the result code of `serializeString` is discarded. -/
def serializePerson (person : Person) (stream : Stream) : Except Fault Trace :=
  match person.name.cString with
  | .error e => .error e
  | .ok name =>
    .ok ((serializeString name stream).2 ++ serializeInt person.form stream ++
      serializeGender person.gender stream ++ [.put stream ['\n']])

/-- The function `serializePeople(people, stream)`: every record in turn, each
followed by `std::cout << std::endl`. -/
def serializePeople : List Person → Stream → Except Fault Trace
  | [], _ => .ok []
  | person :: rest, stream =>
    match serializePerson person stream with
    | .error e => .error e
    | .ok t1 =>
      match serializePeople rest stream with
      | .error e => .error e
      | .ok t2 => .ok (t1 ++ [.endl .cout] ++ t2)

/-! ## Decoding -/

/-- The call `text.find(c, pos)`: the index of the first `c` at or after `pos`,
`none` for `npos`. -/
def find (text : List Char) (c : Char) (pos : Nat) : Option Nat :=
  let rest := text.drop pos
  if c ∈ rest then some (pos + (rest.takeWhile (· != c)).length) else none

/-- The call `text.substr(pos, n)`. -/
def substr (text : List Char) (pos n : Nat) : List Char := (text.drop pos).take n

/-- The conversion `text.c_str()` followed by the construction of a
`std::string_view` from the pointer: the characters before the first `'\0'`. -/
def cStr (text : List Char) : List Char := text.takeWhile (· != '\x00')

/-- The exceptions of `std::stoi`. -/
inductive StoiError where
  | invalidArgument
  | outOfRange
  deriving DecidableEq, Repr

/-- The C function `isspace` in the "C" locale. -/
def isSpace (c : Char) : Bool :=
  c == ' ' || c == '\t' || c == '\n' || c == '\x0b' || c == '\x0c' || c == '\r'

/-- The C function `isdigit`. -/
def isDigit (c : Char) : Bool := 48 ≤ c.toNat && c.toNat ≤ 57

/-- Value of a run of decimal digits. -/
def digitsValue (ds : List Char) : Nat :=
  ds.foldl (fun acc c => 10 * acc + (c.toNat - 48)) 0

/-- The optional sign of `strtol`: whether it is a minus, and the text after it. -/
def stoiSign : List Char → Bool × List Char
  | '-' :: rest => (true, rest)
  | '+' :: rest => (false, rest)
  | text => (false, text)

/-- The function `std::stoi(str)` (base 10): leading white space is skipped, an
optional sign is read, then the longest run of decimal digits; what follows the
digits is ignored.  No digit: `std::invalid_argument`; a value outside `int`:
`std::out_of_range`. -/
def stoi (str : List Char) : Except StoiError Int :=
  let (negative, text) := stoiSign (str.dropWhile isSpace)
  let ds := text.takeWhile isDigit
  if ds = [] then .error .invalidArgument
  else
    let v : Int := if negative then -(digitsValue ds : Int) else (digitsValue ds : Int)
    if INT_MIN ≤ v ∧ v ≤ INT_MAX then .ok v else .error .outOfRange

/-- The function `deserializeInt(buffer)`: both exceptions of `std::stoi` are
caught, reported on `std::cerr` and replaced by 0. -/
def deserializeInt (buffer : List Char) : Int × Trace :=
  match stoi buffer with
  | .ok v => (v, [])
  | .error .invalidArgument => (0, [.stoiInvalid])
  | .error .outOfRange => (0, [.stoiOutOfRange])

/-- A `std::string_view` as `deserializeGender` sees it: the `size()`
characters it covers and `next`, the character stored right behind them when
there is one (the terminating `'\0'` of the C string the view was built from);
`next` is `none` when no character is stored there, as for a default-constructed
view. -/
structure StringView where
  chars : List Char
  next : Option Char
  deriving DecidableEq

/-- The view the call `deserializeGender(text.c_str())` builds from the
pointer: the characters before the first `'\0'`, with that `'\0'` behind them. -/
def cStrView (text : List Char) : StringView := ⟨cStr text, some '\x00'⟩

/-- The access `buffer[0]`.  `operator[]` makes no size check and reads the
character at `data()`: the first character of the view or, for an empty view,
the character stored behind it; with none stored there it reads outside of
every string. -/
def StringView.first (buffer : StringView) : Except Fault Char :=
  match buffer.chars with
  | c :: _ => .ok c
  | [] =>
    match buffer.next with
    | some c => .ok c
    | none => .error .outOfBounds

/-- The function `deserializeGender(buffer)`: `buffer[0] == 'B'` gives Boy,
every other character Girl. -/
def deserializeGender (buffer : StringView) : Except Fault Gender :=
  match buffer.first with
  | .error e => .error e
  | .ok c => .ok (if c = 'B' then .Boy else .Girl)

/-- The method `PersonDeserializer::deserialize(line)`: the optional record and
the output on `std::cerr`. -/
def deserialize (line : List Char) : Except Fault (Option Person × Trace) :=
  match find line ',' 0 with
  | none => .ok (none, [])
  | some commaPos =>
    let nameStr := substr line 0 (commaPos - 0)
    let checked := serializeString nameStr .cerr
    if checked.1 ≠ .Success then .ok (none, checked.2)
    else
      match NameArray.uninit.copyFrom 0 nameStr with
      | .error e => .error e
      | .ok copied =>
        match copied.write nameStr.length '\x00' with
        | .error e => .error e
        | .ok name =>
          let pos := commaPos + 1
          match find line ',' pos with
          | none => .ok (none, checked.2)
          | some commaPos2 =>
            let form := deserializeInt (cStr (substr line pos (commaPos2 - pos)))
            let pos2 := commaPos2 + 1
            match deserializeGender (cStrView (line.drop pos2)) with
            | .error e => .error e
            | .ok gender => .ok (some ⟨name, form.1, gender⟩, checked.2 ++ form.2)

/-- The call `std::getline(stream, line)`: `none` when nothing is left to read,
else the line (without its `'\n'`) and the rest of the stream. -/
def getline (stream : List Char) : Option (List Char × List Char) :=
  match stream with
  | [] => none
  | _ :: _ =>
    let line := stream.takeWhile (· != '\n')
    some (line, stream.drop (line.length + 1))

/-- The loop of `deserializePeople`, with the vector and the output so far. -/
def deserializePeopleLoop :
    Nat → List Char → List Person → Trace → Except Fault (List Person × Trace)
  | 0, _, _, _ => .error .outOfFuel
  | fuel + 1, stream, people, tr =>
    match getline stream with
    | none => .ok (people, tr)
    | some (line, rest) =>
      match deserialize line with
      | .error e => .error e
      | .ok (some person, t) => deserializePeopleLoop fuel rest (people ++ [person]) (tr ++ t)
      | .ok (none, t) =>
        deserializePeopleLoop fuel rest people (tr ++ t ++ [.malformedLine line])

/-- The function `deserializePeople(stream)`: the records read and the output
on `std::cerr`.  Every `getline` that succeeds consumes a character, so the
length of the stream plus one bounds the number of iterations. -/
def deserializePeople (stream : List Char) : Except Fault (List Person × Trace) :=
  deserializePeopleLoop (stream.length + 1) stream [] []

/-! ## Specification-side definitions -/

/-- The text that a list of traces, taken one after the other, puts on a stream. -/
def writtenAll (s : Stream) (ts : List Trace) : List Char :=
  (ts.map (written s)).flatten

/-- Records written one after the other by separate calls of `serializePerson`. -/
def serializeEach : List Person → Stream → Except Fault (List Trace)
  | [], _ => .ok []
  | p :: rest, st =>
    match serializePerson p st with
    | .error e => .error e
    | .ok t =>
      match serializeEach rest st with
      | .error e => .error e
      | .ok ts => .ok (t :: ts)

/-- The optional sign in front of the digits: nothing, a minus or a plus. -/
def isSignText (sign : List Char) : Prop := sign = [] ∨ sign = ['-'] ∨ sign = ['+']

/-- The value `strtol` computes from the sign and the digits. -/
def signedValue (sign ds : List Char) : Int :=
  if sign = ['-'] then -(digitsValue ds : Int) else (digitsValue ds : Int)

/-- The array `deserialize` leaves in `person.name` for a name of at most 19
characters: the characters, the terminator, and indeterminate cells. -/
def NameArray.stored (s : List Char) (h : s.length < nameCapacity) : NameArray :=
  ⟨s.map some ++ some '\x00' :: List.replicate (nameCapacity - 1 - s.length) none,
   by simp [nameCapacity] at *; omega⟩

/-- The gender a text stands for by its first character: Boy when the text
starts with `B`, Girl otherwise (the empty text included). -/
def firstCharGender (text : List Char) : Gender :=
  if text.head? = some 'B' then .Boy else .Girl

/-- The tag `serializeGender` writes in front of its delimiter. -/
def genderTag : Gender → List Char
  | .Boy => ['B']
  | .Girl => ['G']

/-- A stream made of the given lines, each one terminated by `'\n'`. -/
def joinLines : List (List Char) → List Char
  | [] => []
  | line :: rest => line ++ '\n' :: joinLines rest

/-- The last line of a stream that does not end in `'\n'`: no line when nothing
follows the last `'\n'`. -/
def lastLine (last : List Char) : List (List Char) :=
  if last = [] then [] else [last]

/-- Line by line decoding as the specification describes it: `deserialize` is
applied to each line in order, the records of the accepted lines are kept, and
each rejected line is reported once, right after the output of its decoding. -/
def decodeLines : List (List Char) → Except Fault (List Person × Trace)
  | [] => .ok ([], [])
  | line :: rest =>
    match deserialize line with
    | .error e => .error e
    | .ok (r, t) =>
      match decodeLines rest with
      | .error e => .error e
      | .ok (people, tr) =>
        .ok (r.toList ++ people,
             t ++ (if r.isNone then [Event.malformedLine line] else []) ++ tr)

/-- The lines reported as malformed in a trace, in order. -/
def malformedLines : Trace → List (List Char)
  | [] => []
  | .malformedLine line :: rest => line :: malformedLines rest
  | _ :: rest => malformedLines rest

/-- The result of the loop of `deserializePeople` that starts with `people` and
`tr` and goes on to compute `r`. -/
def continueWith (people : List Person) (tr : Trace)
    (r : Except Fault (List Person × Trace)) : Except Fault (List Person × Trace) :=
  match r with
  | .error e => .error e
  | .ok (ps, t) => .ok (people ++ ps, tr ++ t)

/-- The record `person1` of `main`: `{ "Lera", 10, Gender::Girl }`. -/
def person1 : Person := ⟨NameArray.ofLiteral "Lera".toList (by decide), 10, .Girl⟩

/-- The record `person2` of `main`: `{ "Vasea", 12, Gender::Boy }`. -/
def person2 : Person := ⟨NameArray.ofLiteral "Vasea".toList (by decide), 12, .Boy⟩

/-- A record whose name holds a `','`: `{ "a,b", 7, Gender::Girl }`. -/
def personComma : Person := ⟨NameArray.ofLiteral "a,b".toList (by decide), 7, .Girl⟩

/-- A record whose name holds a newline: `{ "a\nb", 1, Gender::Boy }`. -/
def personNewline : Person := ⟨NameArray.ofLiteral "a\nb".toList (by decide), 1, .Boy⟩

/-! ## Lemmas: digits and `std::stoi` -/

theorem digitChar_toNat (d : Nat) (h : d < 10) : (digitChar d).toNat = 48 + d := by
  revert d; decide

theorem isDigit_digitChar (d : Nat) (h : d < 10) : isDigit (digitChar d) = true := by
  have := digitChar_toNat d h
  simp [isDigit, this]; omega

theorem natDigitsAux_acc (fuel : Nat) : ∀ (n : Nat) (acc : List Char), n < fuel →
    natDigitsAux fuel n acc = natDigitsAux fuel n [] ++ acc := by
  induction fuel with
  | zero => intro n acc h; omega
  | succ f ih =>
    intro n acc h
    unfold natDigitsAux
    by_cases h10 : n < 10
    · simp [h10]
    · simp only [h10, if_false]
      have hlt : n / 10 < f := by omega
      rw [ih (n / 10) (digitChar (n % 10) :: acc) hlt, ih (n / 10) [digitChar (n % 10)] hlt]
      simp

theorem natDigitsAux_fuel (f1 : Nat) : ∀ (f2 n : Nat) (acc : List Char), n < f1 → n < f2 →
    natDigitsAux f1 n acc = natDigitsAux f2 n acc := by
  induction f1 with
  | zero => intro f2 n acc h; omega
  | succ f ih =>
    intro f2 n acc h1 h2
    cases f2 with
    | zero => omega
    | succ g =>
      unfold natDigitsAux
      by_cases h10 : n < 10
      · simp [h10]
      · simp only [h10, if_false]
        exact ih g (n / 10) _ (by omega) (by omega)

theorem natDigits_small (n : Nat) (h : n < 10) : natDigits n = [digitChar n] := by
  simp [natDigits, natDigitsAux, h]

theorem natDigits_step (n : Nat) (h : ¬ n < 10) :
    natDigits n = natDigits (n / 10) ++ [digitChar (n % 10)] := by
  have h1 : natDigits n = natDigitsAux n (n / 10) [digitChar (n % 10)] := by
    simp [natDigits, natDigitsAux, h]
  rw [h1, natDigitsAux_acc n (n / 10) _ (by omega)]
  congr 1
  exact natDigitsAux_fuel n (n / 10 + 1) (n / 10) [] (by omega) (by omega)

theorem natDigits_isDigit (n : Nat) : ∀ c ∈ natDigits n, isDigit c = true := by
  induction n using Nat.strong_induction_on with
  | _ n ih =>
    by_cases h : n < 10
    · rw [natDigits_small n h]
      intro c hc
      simp at hc
      subst hc
      exact isDigit_digitChar n h
    · rw [natDigits_step n h]
      intro c hc
      rw [List.mem_append] at hc
      rcases hc with hc | hc
      · exact ih (n / 10) (by omega) c hc
      · simp at hc
        subst hc
        exact isDigit_digitChar _ (by omega)

theorem natDigits_ne_nil (n : Nat) : natDigits n ≠ [] := by
  by_cases h : n < 10
  · rw [natDigits_small n h]; simp
  · rw [natDigits_step n h]; simp

theorem digitsValue_snoc (ds : List Char) (c : Char) :
    digitsValue (ds ++ [c]) = 10 * digitsValue ds + (c.toNat - 48) := by
  simp [digitsValue, List.foldl_append]

theorem digitsValue_natDigits (n : Nat) : digitsValue (natDigits n) = n := by
  induction n using Nat.strong_induction_on with
  | _ n ih =>
    by_cases h : n < 10
    · rw [natDigits_small n h]
      simp [digitsValue, digitChar_toNat n h]
    · rw [natDigits_step n h, digitsValue_snoc, ih (n / 10) (by omega),
        digitChar_toNat _ (by omega : n % 10 < 10)]
      omega

theorem isDigit_not_space_sign (c : Char) (h : isDigit c = true) :
    isSpace c = false ∧ c ≠ '-' ∧ c ≠ '+' := by
  refine ⟨?_, ?_, ?_⟩
  · by_contra hs
    simp only [Bool.not_eq_false, isSpace, Bool.or_eq_true, beq_iff_eq] at hs
    rcases hs with ((((hs | hs) | hs) | hs) | hs) | hs <;> subst hs <;> revert h <;> decide
  · intro hc; subst hc; revert h; decide
  · intro hc; subst hc; revert h; decide

theorem dropWhile_isSpace_append (ws x : List Char) (hws : ∀ c ∈ ws, isSpace c = true)
    (hx : ∀ c, x.head? = some c → isSpace c = false) :
    (ws ++ x).dropWhile isSpace = x := by
  induction ws with
  | nil =>
    cases x with
    | nil => rfl
    | cons c r => simp [List.dropWhile, hx c rfl]
  | cons w ws ih =>
    have hw : isSpace w = true := hws w (by simp)
    rw [List.cons_append, List.dropWhile_cons, hw]
    simp only [if_true]
    exact ih (fun c hc => hws c (by simp [hc]))

theorem takeWhile_isDigit_append (ds rest : List Char) (hds : ∀ c ∈ ds, isDigit c = true)
    (hrest : ∀ c, rest.head? = some c → isDigit c = false) :
    (ds ++ rest).takeWhile isDigit = ds := by
  induction ds with
  | nil =>
    cases rest with
    | nil => rfl
    | cons c r => simp [List.takeWhile, hrest c rfl]
  | cons d ds ih =>
    have hd : isDigit d = true := hds d (by simp)
    rw [List.cons_append, List.takeWhile_cons, hd]
    simp only [if_true]
    rw [ih (fun c hc => hds c (by simp [hc]))]

theorem stoiSign_append (sign body : List Char) (hsign : isSignText sign)
    (hbody : sign = [] → ∀ c, body.head? = some c → c ≠ '-' ∧ c ≠ '+') :
    stoiSign (sign ++ body) = (decide (sign = ['-']), body) := by
  rcases hsign with h | h | h
  · subst h
    cases body with
    | nil => rfl
    | cons c r =>
      obtain ⟨h1, h2⟩ := hbody rfl c rfl
      simp only [List.nil_append]
      unfold stoiSign
      split
      · rename_i heq; simp at heq; exact absurd heq.1 h1
      · rename_i heq; simp at heq; exact absurd heq.1 h2
      · simp
  · subst h; simp [stoiSign]
  · subst h; simp [stoiSign]

/-- How `std::stoi` reads a text split into white space, sign and the rest. -/
theorem stoi_scan (ws sign body : List Char) (hws : ∀ c ∈ ws, isSpace c = true)
    (hsign : isSignText sign)
    (hbody : sign = [] → ∀ c, body.head? = some c → isSpace c = false ∧ c ≠ '-' ∧ c ≠ '+') :
    stoi (ws ++ sign ++ body) =
      if body.takeWhile isDigit = [] then .error .invalidArgument
      else
        let v : Int := if sign = ['-'] then -(digitsValue (body.takeWhile isDigit) : Int)
          else (digitsValue (body.takeWhile isDigit) : Int)
        if INT_MIN ≤ v ∧ v ≤ INT_MAX then .ok v else .error .outOfRange := by
  have h1 : (ws ++ sign ++ body).dropWhile isSpace = sign ++ body := by
    rw [List.append_assoc]
    apply dropWhile_isSpace_append ws _ hws
    intro c hc
    rcases hsign with h | h | h
    · subst h; exact (hbody rfl c (by simpa using hc)).1
    · subst h; simp at hc; subst hc; decide
    · subst h; simp at hc; subst hc; decide
  have h2 := stoiSign_append sign body hsign (fun hs c hc => (hbody hs c hc).2)
  unfold stoi
  rw [h1, h2]
  by_cases hm : sign = ['-'] <;> simp [hm]

/-! ## Lemmas: traces -/

theorem written_append (s : Stream) (t1 t2 : Trace) :
    written s (t1 ++ t2) = written s t1 ++ written s t2 := by
  induction t1 with
  | nil => rfl
  | cons e rest ih =>
    by_cases h : e.target = s <;> simp [written, h, ih]

/-! ## Lemmas: decoding -/

theorem stoi_parts (ws sign ds rest : List Char)
    (hws : ∀ c ∈ ws, isSpace c = true) (hsign : isSignText sign)
    (hds : ∀ c ∈ ds, isDigit c = true)
    (hrest : ∀ c, rest.head? = some c → isDigit c = false)
    (hplain : sign = [] → ds = [] →
      ∀ c, rest.head? = some c → isSpace c = false ∧ c ≠ '-' ∧ c ≠ '+') :
    stoi (ws ++ sign ++ ds ++ rest) =
      if ds = [] then .error .invalidArgument
      else if isInt32 (signedValue sign ds) then .ok (signedValue sign ds)
      else .error .outOfRange := by
  have htw : (ds ++ rest).takeWhile isDigit = ds := takeWhile_isDigit_append ds rest hds hrest
  have hbody : sign = [] → ∀ c, (ds ++ rest).head? = some c →
      isSpace c = false ∧ c ≠ '-' ∧ c ≠ '+' := by
    intro hs c hc
    cases ds with
    | nil => exact hplain hs rfl c (by simpa using hc)
    | cons d ds' =>
      simp at hc
      subst hc
      exact isDigit_not_space_sign d (hds d (by simp))
  have := stoi_scan ws sign (ds ++ rest) hws hsign hbody
  rw [List.append_assoc (ws ++ sign) ds rest, this, htw]
  simp only [signedValue, isInt32]

theorem intText_chars (v : Int) : ∀ c ∈ intText v, c = '-' ∨ isDigit c = true := by
  intro c hc
  unfold intText at hc
  split at hc
  · simp at hc
    rcases hc with hc | hc
    · exact Or.inl hc
    · exact Or.inr (natDigits_isDigit _ c hc)
  · exact Or.inr (natDigits_isDigit _ c hc)

theorem stoi_intText (v : Int) (hv : isInt32 v) : stoi (intText v) = .ok v := by
  by_cases hneg : v < 0
  · have h := stoi_parts [] ['-'] (natDigits (-v).toNat) [] (by simp) (Or.inr (Or.inl rfl))
      (natDigits_isDigit _) (by simp) (by simp)
    have hval : signedValue ['-'] (natDigits (-v).toNat) = v := by
      simp [signedValue, digitsValue_natDigits]; omega
    simp only [List.nil_append, List.append_nil, natDigits_ne_nil, if_false, hval, hv,
      if_true] at h
    simpa [intText, hneg] using h
  · have h := stoi_parts [] [] (natDigits v.toNat) [] (by simp) (Or.inl rfl)
      (natDigits_isDigit _) (by simp) (by simp)
    have hval : signedValue [] (natDigits v.toNat) = v := by
      simp [signedValue, digitsValue_natDigits]; omega
    simp only [List.nil_append, List.append_nil, natDigits_ne_nil, if_false, hval, hv,
      if_true] at h
    simpa [intText, hneg] using h

theorem cStr_eq_self (s : List Char) (h : ∀ c ∈ s, c ≠ '\x00') : cStr s = s := by
  unfold cStr
  rw [List.takeWhile_eq_self_iff]
  intro c hc
  simpa using h c hc

theorem cStr_intText (v : Int) : cStr (intText v) = intText v := by
  apply cStr_eq_self
  intro c hc h0
  subst h0
  rcases intText_chars v _ hc with h | h
  · revert h; decide
  · revert h; decide

theorem deserializeInt_intText (v : Int) (hv : isInt32 v) :
    deserializeInt (cStr (intText v)) = (v, []) := by
  rw [cStr_intText]
  simp [deserializeInt, stoi_intText v hv]

theorem NameArray.ext_cells (a b : NameArray) (h : a.cells = b.cells) : a = b := by
  cases a; cases b; simp at h; subst h; rfl

theorem find_at (text : List Char) (c : Char) (pos : Nat) (pre post : List Char)
    (h : text.drop pos = pre ++ c :: post) (hpre : c ∉ pre) :
    find text c pos = some (pos + pre.length) := by
  unfold find
  simp only [h]
  have hmem : c ∈ pre ++ c :: post := by simp
  rw [if_pos hmem]
  congr 2
  have : (pre ++ c :: post).takeWhile (· != c) = pre := by
    rw [List.takeWhile_append_of_pos]
    · simp
    · intro x hx
      simp
      intro hxc
      exact hpre (hxc ▸ hx)
  rw [this]

theorem find_none (text : List Char) (c : Char) (pos : Nat) (h : c ∉ text.drop pos) :
    find text c pos = none := by
  unfold find
  simp only [h, if_false]

theorem write_cells (done : List Char) (k : Nat) (c : Char) (a : NameArray)
    (ha : a.cells = done.map some ++ List.replicate (k + 1) none) :
    ∃ b, a.write done.length c = .ok b ∧
      b.cells = (done ++ [c]).map some ++ List.replicate k none := by
  have hlen := a.size_eq
  rw [ha] at hlen
  simp at hlen
  have hi : done.length < nameCapacity := by omega
  refine ⟨_, by simp only [NameArray.write, hi, dif_pos]; rfl, ?_⟩
  simp only [ha]
  rw [List.set_append_right _ _ (by simp)]
  simp [List.replicate_succ]

theorem copyFrom_cells (s : List Char) : ∀ (done : List Char) (k : Nat) (a : NameArray),
    a.cells = done.map some ++ List.replicate (s.length + k) none →
    ∃ b, a.copyFrom done.length s = .ok b ∧
      b.cells = (done ++ s).map some ++ List.replicate k none := by
  induction s with
  | nil =>
    intro done k a ha
    exact ⟨a, rfl, by simpa using ha⟩
  | cons c rest ih =>
    intro done k a ha
    have ha1 : a.cells = done.map some ++ List.replicate ((rest.length + k) + 1) none := by
      rw [ha]; congr 2; simp; omega
    obtain ⟨b, hb, hbc⟩ := write_cells done (rest.length + k) c a ha1
    obtain ⟨b2, hb2, hb2c⟩ := ih (done ++ [c]) k b hbc
    refine ⟨b2, ?_, by simpa using hb2c⟩
    simp only [NameArray.copyFrom, hb]
    simpa using hb2

theorem store_name (s : List Char) (h : s.length < nameCapacity) :
    ∃ copied, NameArray.uninit.copyFrom 0 s = .ok copied ∧
      copied.write s.length '\x00' = .ok (NameArray.stored s h) := by
  have h0 : NameArray.uninit.cells =
      ([] : List Char).map some ++ List.replicate (s.length + (nameCapacity - s.length)) none := by
    simp [NameArray.uninit]; omega
  obtain ⟨b, hb, hbc⟩ := copyFrom_cells s [] (nameCapacity - s.length) NameArray.uninit h0
  refine ⟨b, hb, ?_⟩
  have hbc1 : b.cells = s.map some ++ List.replicate ((nameCapacity - 1 - s.length) + 1) none := by
    rw [hbc]; simp; omega
  obtain ⟨b2, hb2, hb2c⟩ := write_cells s _ '\x00' b hbc1
  rw [hb2]
  congr 1
  apply NameArray.ext_cells
  rw [hb2c]
  simp [NameArray.stored]

theorem copyFrom_overflow (s : List Char) : ∀ (i : Nat) (a : NameArray),
    i ≤ nameCapacity → nameCapacity < i + s.length → a.copyFrom i s = .error .outOfBounds := by
  induction s with
  | nil =>
    intro i a h1 h2
    simp at h2
    omega
  | cons c rest ih =>
    intro i a h1 h2
    by_cases hi : i < nameCapacity
    · simp only [NameArray.copyFrom, NameArray.write, hi, dif_pos]
      apply ih
      · omega
      · simp at h2; omega
    · simp [NameArray.copyFrom, NameArray.write, hi]

theorem store_name_overflow (s : List Char) (h : nameCapacity ≤ s.length) :
    (match NameArray.uninit.copyFrom 0 s with
     | .error e => (Except.error e : Except Fault NameArray)
     | .ok copied => copied.write s.length '\x00') = .error .outOfBounds := by
  by_cases hlt : nameCapacity < s.length
  · rw [copyFrom_overflow s 0 _ (by simp) (by omega)]
  · cases hc : NameArray.uninit.copyFrom 0 s with
    | error e =>
      have h0 : NameArray.uninit.cells =
          ([] : List Char).map some ++ List.replicate (s.length + 0) none := by
        simp [NameArray.uninit]; omega
      obtain ⟨b, hb, _⟩ := copyFrom_cells s [] 0 NameArray.uninit h0
      simp at hb
      rw [hb] at hc
      cases hc
    | ok copied =>
      have : ¬ s.length < nameCapacity := by omega
      simp [NameArray.write, this]

theorem deserialize_no_comma (line : List Char) (h : ',' ∉ line) :
    deserialize line = .ok (none, []) := by
  unfold deserialize
  rw [find_none line ',' 0 (by simpa using h)]

theorem substr_prefix (pre rest : List Char) :
    substr (pre ++ rest) 0 (pre.length - 0) = pre := by
  simp [substr]

theorem deserialize_one_comma (pre post : List Char) (hpre : ',' ∉ pre) (hpost : ',' ∉ post)
    (hlen : pre.length < nameCapacity) :
    deserialize (pre ++ ',' :: post) = .ok (none, [Event.put Stream.cerr pre]) := by
  obtain ⟨copied, hc, hw⟩ := store_name pre hlen
  unfold deserialize
  rw [find_at (pre ++ ',' :: post) ',' 0 pre post (by simp) hpre]
  simp only [Nat.zero_add, substr_prefix, serializeString, hpre, if_false, ne_eq,
    not_true_eq_false, hc, hw]
  rw [find_none _ ',' (pre.length + 1) (by simpa using hpost)]

/-- On a view built from a C string `deserializeGender` never reads outside
the string: an empty view is followed by the terminator, which is not `B`. -/
theorem deserializeGender_cStrView (s : List Char) :
    deserializeGender (cStrView s) = .ok (firstCharGender s) := by
  cases s with
  | nil => rfl
  | cons c r =>
    by_cases hc : c = '\x00'
    · subst hc
      simp [cStrView, cStr, deserializeGender, StringView.first, firstCharGender]
    · have : cStr (c :: r) = c :: cStr r := by
        simp [cStr, List.takeWhile_cons, hc]
      simp [cStrView, this, deserializeGender, StringView.first, firstCharGender]

theorem deserialize_two_commas (pre mid post : List Char) (hpre : ',' ∉ pre) (hmid : ',' ∉ mid)
    (hlen : pre.length < nameCapacity) :
    deserialize (pre ++ ',' :: (mid ++ ',' :: post)) =
      .ok (some ⟨NameArray.stored pre hlen, (deserializeInt (cStr mid)).1,
                 firstCharGender post⟩,
           Event.put Stream.cerr pre :: (deserializeInt (cStr mid)).2) := by
  obtain ⟨copied, hc, hw⟩ := store_name pre hlen
  unfold deserialize
  rw [find_at (pre ++ ',' :: (mid ++ ',' :: post)) ',' 0 pre (mid ++ ',' :: post) (by simp) hpre]
  simp only [Nat.zero_add, substr_prefix, serializeString, hpre, if_false, ne_eq,
    not_true_eq_false, hc, hw]
  rw [find_at _ ',' (pre.length + 1) mid post (by simp) hmid]
  have h1 : substr (pre ++ ',' :: (mid ++ ',' :: post)) (pre.length + 1)
      (pre.length + 1 + mid.length - (pre.length + 1)) = mid := by
    simp [substr]
  have h2 : (pre ++ ',' :: (mid ++ ',' :: post)).drop (pre.length + 1 + mid.length + 1) = post := by
    have : pre.length + 1 + mid.length + 1 = (pre ++ ',' :: (mid ++ [','])).length := by
      simp; omega
    rw [this]
    have e : pre ++ ',' :: (mid ++ ',' :: post) = (pre ++ ',' :: (mid ++ [','])) ++ post := by
      simp
    rw [e, List.drop_left]
  simp only [h1, h2, deserializeGender_cStrView]
  rfl

theorem deserialize_long (pre post : List Char) (hpre : ',' ∉ pre)
    (hlen : nameCapacity ≤ pre.length) :
    deserialize (pre ++ ',' :: post) = .error .outOfBounds := by
  have hs := store_name_overflow pre hlen
  unfold deserialize
  rw [find_at (pre ++ ',' :: post) ',' 0 pre post (by simp) hpre]
  simp only [Nat.zero_add, substr_prefix, serializeString, hpre, if_false, ne_eq,
    not_true_eq_false]
  cases hc : NameArray.uninit.copyFrom 0 pre with
  | error e => rw [hc] at hs; simpa using hs
  | ok copied =>
    rw [hc] at hs
    simp only at hs
    simp only [hs]

theorem split_first (line : List Char) (h : ',' ∈ line) :
    ∃ pre post, line = pre ++ ',' :: post ∧ ',' ∉ pre ∧ line.takeWhile (· != ',') = pre := by
  induction line with
  | nil => simp at h
  | cons c rest ih =>
    by_cases hc : c = ','
    · subst hc
      exact ⟨[], rest, rfl, by simp, by simp [List.takeWhile]⟩
    · have hr : ',' ∈ rest := by
        rcases List.mem_cons.mp h with h1 | h1
        · exact absurd h1.symm hc
        · exact h1
      obtain ⟨pre, post, h1, h2, h3⟩ := ih hr
      refine ⟨c :: pre, post, by rw [h1]; rfl, ?_, ?_⟩
      · simp only [List.mem_cons, not_or]
        exact ⟨fun e => hc e.symm, h2⟩
      · rw [List.takeWhile_cons]
        simp [hc, h3]

theorem cStringCells_stored (s : List Char) (rest : List (Option Char))
    (h : '\x00' ∉ s) : cStringCells (s.map some ++ some '\x00' :: rest) = .ok s := by
  induction s with
  | nil => simp [cStringCells]
  | cons c r ih =>
    have hc : c ≠ '\x00' := fun e => h (by simp [e])
    have hr : '\x00' ∉ r := fun e => h (by simp [e])
    simp [cStringCells, hc, ih hr]

theorem intText_no_comma (v : Int) : ',' ∉ intText v := by
  intro h
  rcases intText_chars v _ h with h | h
  · revert h; decide
  · revert h; decide

theorem getline_line (l rest : List Char) (h : '\n' ∉ l) :
    getline (l ++ '\n' :: rest) = some (l, rest) := by
  have htw : (l ++ '\n' :: rest).takeWhile (· != '\n') = l := by
    rw [List.takeWhile_append_of_pos]
    · simp
    · intro x hx
      simp
      intro hxc
      exact h (hxc ▸ hx)
  cases l with
  | nil => simp [getline]
  | cons c r =>
    simp only [getline, List.cons_append]
    rw [← List.cons_append, htw]
    simp

theorem getline_last (last : List Char) (h : '\n' ∉ last) (hne : last ≠ []) :
    getline last = some (last, []) := by
  have htw : last.takeWhile (· != '\n') = last := by
    rw [List.takeWhile_eq_self_iff]
    intro x hx
    simp
    intro hxc
    exact h (hxc ▸ hx)
  cases last with
  | nil => exact absurd rfl hne
  | cons c r =>
    simp only [getline]
    rw [htw]
    simp

theorem continueWith_assoc (people : List Person) (tr : Trace) (ps : List Person) (t : Trace)
    (r : Except Fault (List Person × Trace)) :
    continueWith (people ++ ps) (tr ++ t) r = continueWith people tr (continueWith ps t r) := by
  cases r with
  | error e => rfl
  | ok v => simp [continueWith]

theorem decodeLines_cons (line : List Char) (rest : List (List Char)) :
    decodeLines (line :: rest) =
      match deserialize line with
      | .error e => .error e
      | .ok (r, t) =>
        continueWith r.toList (t ++ (if r.isNone then [Event.malformedLine line] else []))
          (decodeLines rest) := by
  simp only [decodeLines]
  cases deserialize line with
  | error e => rfl
  | ok v =>
    obtain ⟨r, t⟩ := v
    simp only []
    cases decodeLines rest with
    | error e => rfl
    | ok w => rfl

theorem loop_unfold (fuel : Nat) (s line rest : List Char) (people : List Person) (tr : Trace)
    (hg : getline s = some (line, rest)) :
    deserializePeopleLoop (fuel + 1) s people tr =
      match deserialize line with
      | .error e => .error e
      | .ok (r, t) => deserializePeopleLoop fuel rest (people ++ r.toList)
          (tr ++ (t ++ (if r.isNone then [Event.malformedLine line] else []))) := by
  simp only [deserializePeopleLoop, hg]
  cases deserialize line with
  | error e => rfl
  | ok v =>
    obtain ⟨r, t⟩ := v
    cases r with
    | none => simp
    | some p => simp

theorem loop_lines (last : List Char) (hlast : '\n' ∉ last) :
    ∀ (ls : List (List Char)) (fuel : Nat) (people : List Person) (tr : Trace),
    (∀ l ∈ ls, '\n' ∉ l) → (joinLines ls ++ last).length < fuel →
    deserializePeopleLoop fuel (joinLines ls ++ last) people tr =
      continueWith people tr (decodeLines (ls ++ lastLine last)) := by
  intro ls
  induction ls with
  | nil =>
    intro fuel people tr _ hf
    cases fuel with
    | zero => omega
    | succ f =>
      by_cases hne : last = []
      · subst hne
        simp [joinLines, lastLine, deserializePeopleLoop, getline, decodeLines, continueWith]
      · simp only [joinLines, List.nil_append, lastLine, hne, if_false]
        rw [loop_unfold f last last [] people tr (getline_last last hlast hne), decodeLines_cons]
        cases deserialize last with
        | error e => rfl
        | ok v =>
          obtain ⟨r, t⟩ := v
          simp only []
          cases f with
          | zero =>
            simp [joinLines] at hf
            exact absurd hf hne
          | succ g =>
            simp [deserializePeopleLoop, getline, decodeLines, continueWith]
  | cons l rest ih =>
    intro fuel people tr hls hf
    have hl : '\n' ∉ l := hls l (by simp)
    have hrest : ∀ x ∈ rest, '\n' ∉ x := fun x hx => hls x (by simp [hx])
    cases fuel with
    | zero => omega
    | succ f =>
      have hs : joinLines (l :: rest) ++ last = l ++ '\n' :: (joinLines rest ++ last) := by
        simp [joinLines]
      rw [hs, loop_unfold f _ l (joinLines rest ++ last) people tr (getline_line l _ hl)]
      rw [List.cons_append, decodeLines_cons]
      cases deserialize l with
      | error e => rfl
      | ok v =>
        obtain ⟨r, t⟩ := v
        simp only []
        rw [ih f _ _ hrest (by rw [hs] at hf; simp at hf ⊢; omega), continueWith_assoc]

theorem head_dropWhile_false (p : Char → Bool) (s : List Char) :
    ∀ c, (s.dropWhile p).head? = some c → p c = false := by
  induction s with
  | nil => intro c h; simp at h
  | cons a r ih =>
    intro c h
    by_cases ha : p a = true
    · rw [List.dropWhile_cons_of_pos ha] at h
      exact ih c h
    · rw [List.dropWhile_cons_of_neg ha] at h
      simp at h
      subst h
      simpa using ha

/-- Every text splits into white space, an optional sign, a run of digits and
a rest, the way `std::stoi` scans it. -/
theorem stoi_decompose (s : List Char) :
    ∃ ws sign ds rest, s = ws ++ sign ++ ds ++ rest ∧
      (∀ c ∈ ws, isSpace c = true) ∧ isSignText sign ∧
      (∀ c ∈ ds, isDigit c = true) ∧
      (∀ c, rest.head? = some c → isDigit c = false) ∧
      (sign = [] → ds = [] →
        ∀ c, rest.head? = some c → isSpace c = false ∧ c ≠ '-' ∧ c ≠ '+') := by
  have hsplit : s = s.takeWhile isSpace ++ s.dropWhile isSpace :=
    (List.takeWhile_append_dropWhile isSpace s).symm
  have hws : ∀ c ∈ s.takeWhile isSpace, isSpace c = true :=
    fun c hc => List.mem_takeWhile_imp hc
  have hhead := head_dropWhile_false isSpace s
  generalize s.dropWhile isSpace = s1 at hsplit hhead
  generalize s.takeWhile isSpace = ws at hsplit hws
  have body : ∀ (sign s2 : List Char), s1 = sign ++ s2 → isSignText sign →
      (sign = [] → ∀ c, s2.head? = some c → isSpace c = false ∧ c ≠ '-' ∧ c ≠ '+') →
      ∃ ws sign ds rest, s = ws ++ sign ++ ds ++ rest ∧
      (∀ c ∈ ws, isSpace c = true) ∧ isSignText sign ∧
      (∀ c ∈ ds, isDigit c = true) ∧
      (∀ c, rest.head? = some c → isDigit c = false) ∧
      (sign = [] → ds = [] →
        ∀ c, rest.head? = some c → isSpace c = false ∧ c ≠ '-' ∧ c ≠ '+') := by
    intro sign s2 h1 hsign hplain
    refine ⟨ws, sign, s2.takeWhile isDigit, s2.dropWhile isDigit, ?_, hws, hsign,
      fun c hc => List.mem_takeWhile_imp hc, head_dropWhile_false isDigit s2, ?_⟩
    · rw [hsplit, h1, List.append_assoc (ws ++ sign), List.takeWhile_append_dropWhile,
        List.append_assoc]
    · intro hs hd c hc
      have : s2.dropWhile isDigit = s2 := by
        have := List.takeWhile_append_dropWhile isDigit s2
        rw [hd] at this
        simpa using this
      rw [this] at hc
      exact hplain hs c hc
  cases s1 with
  | nil => exact body [] [] rfl (Or.inl rfl) (by simp)
  | cons a r =>
    by_cases hm : a = '-'
    · exact body ['-'] r (by simp [hm]) (Or.inr (Or.inl rfl)) (by simp)
    · by_cases hp : a = '+'
      · exact body ['+'] r (by simp [hp]) (Or.inr (Or.inr rfl)) (by simp)
      · refine body [] (a :: r) rfl (Or.inl rfl) ?_
        intro _ c hc
        simp at hc
        subst hc
        exact ⟨hhead a rfl, hm, hp⟩

/-- The conversion through `c_str()` does not change what `std::stoi` reads:
the scan stops at a `'\0'` anyway. -/
theorem stoi_cStr (s : List Char) : stoi (cStr s) = stoi s := by
  have hsplit : s = cStr s ++ s.dropWhile (· != '\x00') :=
    (List.takeWhile_append_dropWhile _ s).symm
  have hhead := head_dropWhile_false (· != '\x00') s
  generalize s.dropWhile (· != '\x00') = b at hsplit hhead
  obtain ⟨ws, sign, ds, rest, h1, h2, h3, h4, h5, h6⟩ := stoi_decompose (cStr s)
  have hb : ∀ c, b.head? = some c → c = '\x00' := by
    intro c hc
    simpa using hhead c hc
  have hrest : ∀ c, (rest ++ b).head? = some c → rest.head? = some c ∨ c = '\x00' := by
    intro c hc
    cases rest with
    | nil => exact Or.inr (hb c (by simpa using hc))
    | cons x r => exact Or.inl (by simpa using hc)
  have e1 := stoi_parts ws sign ds rest h2 h3 h4 h5 h6
  have e2 := stoi_parts ws sign ds (rest ++ b) h2 h3 h4
    (by
      intro c hc
      rcases hrest c hc with h | h
      · exact h5 c h
      · subst h; decide)
    (by
      intro hs hd c hc
      rcases hrest c hc with h | h
      · exact h6 hs hd c h
      · subst h; decide)
  rw [← h1] at e1
  rw [← List.append_assoc, ← h1, ← hsplit] at e2
  rw [e1, e2]

theorem deserializeInt_cStr (s : List Char) : deserializeInt (cStr s) = deserializeInt s := by
  unfold deserializeInt
  rw [stoi_cStr]

theorem firstCharGender_head (s t : List Char) (h : s.head? = t.head?) :
    firstCharGender s = firstCharGender t := by
  simp [firstCharGender, h]

/-! ## Lemmas: the loop of `deserializePeople` is total -/

/-- Every stream is a sequence of newline-terminated lines followed by a last,
unterminated (possibly empty) piece. -/
theorem stream_as_lines (stream : List Char) :
    ∃ ls last, (∀ l ∈ ls, '\n' ∉ l) ∧ '\n' ∉ last ∧ stream = joinLines ls ++ last := by
  induction stream with
  | nil => exact ⟨[], [], by simp, by simp, rfl⟩
  | cons c rest ih =>
    obtain ⟨ls, last, h1, h2, h3⟩ := ih
    by_cases hc : c = '\n'
    · refine ⟨[] :: ls, last, ?_, h2, ?_⟩
      · intro l hl
        rcases List.mem_cons.mp hl with rfl | hl
        · simp
        · exact h1 l hl
      · simp [joinLines, hc, h3]
    · cases ls with
      | nil =>
        refine ⟨[], c :: last, by simp, ?_, ?_⟩
        · simp only [List.mem_cons, not_or]
          exact ⟨fun e => hc e.symm, h2⟩
        · simp [joinLines] at h3 ⊢
          exact h3
      | cons l ls' =>
        refine ⟨(c :: l) :: ls', last, ?_, h2, ?_⟩
        · intro x hx
          rcases List.mem_cons.mp hx with rfl | hx
          · simp only [List.mem_cons, not_or]
            exact ⟨fun e => hc e.symm, h1 l (by simp)⟩
          · exact h1 x (by simp [hx])
        · simp [joinLines] at h3 ⊢
          exact h3

/-- The only fault of `deserialize` is an access outside the name array. -/
theorem deserialize_fault (line : List Char) (e : Fault) (h : deserialize line = .error e) :
    e = .outOfBounds := by
  by_cases h0 : ',' ∈ line
  · obtain ⟨pre, post, h1, h2, _⟩ := split_first line h0
    by_cases hlt : pre.length < nameCapacity
    · by_cases hp : ',' ∈ post
      · obtain ⟨mid, post2, h4, h5, _⟩ := split_first post hp
        rw [h1, h4, deserialize_two_commas pre mid post2 h2 h5 hlt] at h
        cases h
      · rw [h1, deserialize_one_comma pre post h2 hp hlt] at h
        cases h
    · rw [h1, deserialize_long pre post h2 (by omega)] at h
      cases h
      rfl
  · rw [deserialize_no_comma line h0] at h
    cases h

theorem decodeLines_fuel (lines : List (List Char)) :
    decodeLines lines ≠ .error .outOfFuel := by
  induction lines with
  | nil => simp [decodeLines]
  | cons l rest ih =>
    rw [decodeLines_cons]
    cases hd : deserialize l with
    | error e =>
      simp only []
      intro h
      cases h
      have := deserialize_fault l _ hd
      cases this
    | ok v =>
      obtain ⟨r, t⟩ := v
      simp only []
      cases hr : decodeLines rest with
      | error e =>
        simp only [continueWith]
        intro h
        cases h
        exact ih hr
      | ok w => simp [continueWith]

/-- The loop of `deserializePeople` ends within its step budget on every stream. -/
theorem deserializePeople_fuel (stream : List Char) :
    deserializePeople stream ≠ .error .outOfFuel := by
  obtain ⟨ls, last, h1, h2, h3⟩ := stream_as_lines stream
  unfold deserializePeople
  rw [h3, loop_lines last h2 ls _ [] [] h1 (by omega)]
  cases hr : decodeLines (ls ++ lastLine last) with
  | error e =>
    simp only [continueWith]
    intro h
    cases h
    exact decodeLines_fuel _ hr
  | ok w => simp [continueWith]

/-! ## Lemmas: encoding -/

/-- The output statements of `serializePerson` for a record with a comma-free
name: the name, the form, the gender tag with its delimiter, the newline. -/
theorem serializePerson_trace (p : Person) (name : List Char) (st : Stream)
    (hname : p.name.cString = .ok name) (hcomma : ',' ∉ name) :
    serializePerson p st = .ok [Event.put st name, Event.put st (intText p.form),
      Event.put st (genderTag p.gender ++ [',']), Event.put st ['\n']] := by
  unfold serializePerson
  rw [hname]
  cases hg : p.gender <;> simp [serializeString, hcomma, serializeInt, serializeGender, genderTag]

theorem genderTag_no_comma (g : Gender) : ',' ∉ genderTag g := by
  cases g <;> decide

/-- The line `serializePerson` writes for a comma-free name holds a single
`','`, so `deserialize` never returns a record for it. -/
theorem deserialize_encoded_line (name : List Char) (f : Int) (g : Gender)
    (hcomma : ',' ∉ name) (p : Person) (tr : Trace) :
    deserialize (name ++ intText f ++ genderTag g ++ [',']) ≠ .ok (some p, tr) := by
  have hpre : ',' ∉ name ++ intText f ++ genderTag g := by
    simp only [List.mem_append, not_or]
    exact ⟨⟨hcomma, intText_no_comma f⟩, genderTag_no_comma g⟩
  by_cases hlen : (name ++ intText f ++ genderTag g).length < nameCapacity
  · rw [deserialize_one_comma _ [] hpre (by simp) hlen]
    simp
  · rw [deserialize_long _ [] hpre (by omega)]
    simp

/-! ## Lemmas: partial writes, lines and the name buffer -/

theorem serializePerson_trace_comma (p : Person) (name : List Char) (st : Stream)
    (hname : p.name.cString = .ok name) (hcomma : ',' ∈ name) :
    serializePerson p st = .ok [Event.commaInString, Event.put st (intText p.form),
      Event.put st (genderTag p.gender ++ [',']), Event.put st ['\n']] := by
  unfold serializePerson
  rw [hname]
  cases hg : p.gender <;> simp [serializeString, hcomma, serializeInt, serializeGender, genderTag]

theorem written_put (st : Stream) (text : List Char) (rest : Trace) :
    written st (Event.put st text :: rest) = text ++ written st rest := by
  simp [written, Event.target, Event.text]

theorem written_commaInString (st : Stream) (rest : Trace) (hst : st ≠ Stream.cerr) :
    written st (Event.commaInString :: rest) = written st rest := by
  have : Stream.cerr ≠ st := fun e => hst e.symm
  simp [written, Event.target, this]

theorem intText_no_newline (v : Int) : '\n' ∉ intText v := by
  intro h
  rcases intText_chars v _ h with h | h
  · revert h; decide
  · revert h; decide

theorem genderTag_no_newline (g : Gender) : '\n' ∉ genderTag g := by
  cases g <;> decide

theorem count_joinLines (lines : List (List Char)) (h : ∀ l ∈ lines, '\n' ∉ l) :
    (joinLines lines).count '\n' = lines.length := by
  induction lines with
  | nil => rfl
  | cons l rest ih =>
    have hl : '\n' ∉ l := h l (by simp)
    simp only [joinLines, List.count_append, List.count_eq_zero_of_not_mem hl, List.count_cons_self,
      List.length_cons, ih (fun x hx => h x (by simp [hx]))]
    omega

/-- The text `serializePerson` puts on a sink other than `std::cerr` is one
newline-terminated line, when the name that is written holds no newline. -/
theorem serializePerson_line (p : Person) (name : List Char) (st : Stream)
    (hname : p.name.cString = .ok name) (hnl : '\n' ∉ name ∨ ',' ∈ name)
    (hst : st ≠ Stream.cerr) :
    ∃ t body, serializePerson p st = .ok t ∧ written st t = body ++ ['\n'] ∧ '\n' ∉ body := by
  by_cases hcomma : ',' ∈ name
  · refine ⟨_, intText p.form ++ (genderTag p.gender ++ [',']),
      serializePerson_trace_comma p name st hname hcomma, ?_, ?_⟩
    · rw [written_commaInString st _ hst, written_put, written_put, written_put]
      simp [written]
    · simp only [List.mem_append, not_or]
      exact ⟨intText_no_newline _, genderTag_no_newline _, by decide⟩
  · have hn : '\n' ∉ name := by
      rcases hnl with h | h
      · exact h
      · exact absurd h hcomma
    refine ⟨_, name ++ (intText p.form ++ (genderTag p.gender ++ [','])),
      serializePerson_trace p name st hname hcomma, ?_, ?_⟩
    · rw [written_put, written_put, written_put, written_put]
      simp [written]
    · simp only [List.mem_append, not_or]
      exact ⟨hn, intText_no_newline _, genderTag_no_newline _, by decide⟩

theorem deserializeInt_bad (s : List Char) (h : ∀ v, stoi s ≠ .ok v) :
    deserializeInt s = (0, [Event.stoiInvalid]) ∨ deserializeInt s = (0, [Event.stoiOutOfRange]) := by
  unfold deserializeInt
  cases hs : stoi s with
  | ok v => exact absurd hs (h v)
  | error e => cases e <;> simp

theorem stored_cells_take (pre : List Char) (hlt : pre.length < nameCapacity) :
    (NameArray.stored pre hlt).cells.take (pre.length + 1) = pre.map some ++ [some '\x00'] := by
  simp [NameArray.stored, List.take_append_eq_append_take]

theorem stored_cString (pre : List Char) (hlt : pre.length < nameCapacity) (h0 : '\x00' ∉ pre) :
    (NameArray.stored pre hlt).cString = .ok pre :=
  cStringCells_stored pre _ h0

theorem line_two_commas (pre mid post : List Char) :
    pre ++ [','] ++ mid ++ [','] ++ post = pre ++ ',' :: (mid ++ ',' :: post) := by simp

theorem find_first (line : List Char) (h : ',' ∈ line) :
    find line ',' 0 = some (line.takeWhile (· != ',')).length ∧
    substr line 0 ((line.takeWhile (· != ',')).length - 0) = line.takeWhile (· != ',') ∧
    ',' ∉ line.takeWhile (· != ',') := by
  obtain ⟨pre, post, h1, h2, h3⟩ := split_first line h
  rw [h3]
  refine ⟨?_, ?_, h2⟩
  · have := find_at line ',' 0 pre post (by simpa using h1) h2
    simpa using this
  · rw [h1]
    exact substr_prefix pre _

theorem deserialize_defined (pre post : List Char) (hpre : ',' ∉ pre)
    (hlt : pre.length < nameCapacity) :
    ∃ r tr, deserialize (pre ++ ',' :: post) = .ok (r, Event.put Stream.cerr pre :: tr) := by
  by_cases hp : ',' ∈ post
  · obtain ⟨mid, post2, h4, h5, _⟩ := split_first post hp
    rw [h4, deserialize_two_commas pre mid post2 hpre h5 hlt]
    exact ⟨_, _, rfl⟩
  · rw [deserialize_one_comma pre post hpre hp hlt]
    exact ⟨_, _, rfl⟩

theorem write_overflow (a : NameArray) (i : Nat) (c : Char) (h : nameCapacity ≤ i) :
    a.write i c = .error .outOfBounds := by
  have : ¬ i < nameCapacity := by omega
  simp [NameArray.write, this]

/-! ## Lemmas: lines that stay inside the name array -/

/-- C1, evaluated on `person1` of `main`: the name is the C string `Lera`, it has
no comma, `serializePerson` writes the line `Lera10G,` and `deserialize`
rejects that line (it holds one `','` only), so the record does not come back. -/
theorem roundtrip_person1_rejected :
    person1.name.cString = .ok "Lera".toList ∧ ',' ∉ "Lera".toList ∧
    (serializePerson person1 Stream.sink).map (written Stream.sink) =
      .ok ("Lera10G,".toList ++ ['\n']) ∧
    deserialize "Lera10G,".toList = .ok (none, [Event.put Stream.cerr "Lera10G".toList]) := by
  decide

/-- C2, evaluated on the two records of `main`: `serializePerson` writes
`Lera10G,` and `Vasea12B,` (each followed by a newline), with no delimiter
after the name and after the form, not `Lera,10,G,` and `Vasea,12,B,`. -/
theorem serializePerson_main_records :
    (serializePerson person1 Stream.sink).map (written Stream.sink) = .ok "Lera10G,\n".toList ∧
    "Lera10G,\n".toList ≠ "Lera,10,G,\n".toList ∧
    (serializePerson person2 Stream.sink).map (written Stream.sink) = .ok "Vasea12B,\n".toList ∧
    "Vasea12B,\n".toList ≠ "Vasea,12,B,\n".toList := by
  decide

/-- C3: for a name of at most 19 characters without `','`, a 32-bit `f` and a
gender `g`, `deserialize` of the line `name,decimal(f),tag(g),` returns a record:
its array holds the name followed by the terminator (so the name read back as a C
string is `name` when `name` has no `'\0'`), its form is `f`, its gender is `g`.
The lines `Lera,10,G,` and `Vasea,12,B,` decode to (Lera, 10, Girl) and
(Vasea, 12, Boy). -/
theorem deserialize_wire_format (name : List Char) (f : Int) (g : Gender)
    (hlen : name.length ≤ 19) (hcomma : ',' ∉ name) (hf : isInt32 f) :
    (∃ p tr, deserialize (name ++ [','] ++ intText f ++ [','] ++ genderTag g ++ [',']) =
        .ok (some p, tr) ∧
      p.name.cells.take (name.length + 1) = name.map some ++ [some '\x00'] ∧
      ('\x00' ∉ name → p.name.cString = .ok name) ∧
      p.form = f ∧ p.gender = g) ∧
    (deserialize "Lera,10,G,".toList).map
        (fun r => r.1.map (fun p => (p.name.cString, p.form, p.gender))) =
      .ok (some (.ok "Lera".toList, 10, Gender.Girl)) ∧
    (deserialize "Vasea,12,B,".toList).map
        (fun r => r.1.map (fun p => (p.name.cString, p.form, p.gender))) =
      .ok (some (.ok "Vasea".toList, 12, Gender.Boy)) := by
  refine ⟨?_, by decide, by decide⟩
  have hlt : name.length < nameCapacity := by simp [nameCapacity]; omega
  have e : name ++ [','] ++ intText f ++ [','] ++ genderTag g ++ [','] =
      name ++ ',' :: (intText f ++ ',' :: (genderTag g ++ [','])) := by simp
  rw [e, deserialize_two_commas name (intText f) _ hcomma (intText_no_comma f) hlt]
  refine ⟨_, _, rfl, ?_, ?_, ?_, ?_⟩
  · simp [NameArray.stored, List.take_append_eq_append_take]
  · intro h0
    exact cStringCells_stored name _ h0
  · simp only [deserializeInt_intText f hf]
  · cases g
    · show firstCharGender (genderTag Gender.Boy ++ [',']) = Gender.Boy
      decide
    · show firstCharGender (genderTag Gender.Girl ++ [',']) = Gender.Girl
      decide

/-- Witness of C3 at the name `Ann`, the form -7 and the gender Boy. -/
theorem deserialize_wire_format_witness :
    "Ann".toList.length ≤ 19 ∧ ',' ∉ "Ann".toList ∧ isInt32 (-7) ∧ '\x00' ∉ "Ann".toList ∧
    ∃ p tr, deserialize ("Ann".toList ++ [','] ++ intText (-7) ++ [','] ++
          genderTag Gender.Boy ++ [',']) = .ok (some p, tr) ∧
      p.name.cells.take ("Ann".toList.length + 1) = "Ann".toList.map some ++ [some '\x00'] ∧
      ('\x00' ∉ "Ann".toList → p.name.cString = .ok "Ann".toList) ∧
      p.form = -7 ∧ p.gender = Gender.Boy :=
  ⟨by decide, by decide, by decide, by decide,
    (deserialize_wire_format "Ann".toList (-7) Gender.Boy (by decide) (by decide)
      (by decide)).1⟩

/-- C4, evaluated on the two records of `main`: `serializePeople` writes the
lines `Lera10G,` and `Vasea12B,`, and `deserializePeople` reads no record back
from that text; both lines are reported as malformed. -/
theorem bulk_roundtrip_main_records :
    (serializePeople [person1, person2] Stream.sink).map (written Stream.sink) =
      .ok "Lera10G,\nVasea12B,\n".toList ∧
    (deserializePeople "Lera10G,\nVasea12B,\n".toList).map Prod.fst = .ok [] ∧
    (deserializePeople "Lera10G,\nVasea12B,\n".toList).map (fun r => malformedLines r.2) =
      .ok ["Lera10G,".toList, "Vasea12B,".toList] := by
  decide

/-- C6: on a sink other than `std::cerr`, `serializeString` returns
`CommaInStringField` and writes nothing to the sink when the text holds a `','`
(its only output is the diagnostic on `std::cerr`); otherwise it returns
`Success` and its only output is the text itself, verbatim, on the sink. -/
theorem serializeString_spec (s : List Char) (st : Stream) (hst : st ≠ Stream.cerr) :
    (',' ∈ s → (serializeString s st).1 = StringSerializationError.CommaInStringField ∧
        (serializeString s st).2 = [Event.commaInString] ∧
        written st (serializeString s st).2 = []) ∧
    (',' ∉ s → (serializeString s st).1 = StringSerializationError.Success ∧
        (serializeString s st).2 = [Event.put st s] ∧
        written st (serializeString s st).2 = s) := by
  constructor
  · intro h
    have : Stream.cerr ≠ st := fun e => hst e.symm
    simp [serializeString, h, written, Event.target, this]
  · intro h
    simp [serializeString, h, written, Event.target, Event.text]

/-- Witness of C6 on the file sink, at a text with a comma and one without. -/
theorem serializeString_spec_witness :
    Stream.sink ≠ Stream.cerr ∧ ',' ∈ "a,b".toList ∧ ',' ∉ "ab".toList ∧
    ((serializeString "a,b".toList Stream.sink).1 = StringSerializationError.CommaInStringField ∧
      (serializeString "a,b".toList Stream.sink).2 = [Event.commaInString] ∧
      written Stream.sink (serializeString "a,b".toList Stream.sink).2 = []) ∧
    ((serializeString "ab".toList Stream.sink).1 = StringSerializationError.Success ∧
      (serializeString "ab".toList Stream.sink).2 = [Event.put Stream.sink "ab".toList] ∧
      written Stream.sink (serializeString "ab".toList Stream.sink).2 = "ab".toList) :=
  ⟨by decide, by decide, by decide,
    (serializeString_spec "a,b".toList Stream.sink (by decide)).1 (by decide),
    (serializeString_spec "ab".toList Stream.sink (by decide)).2 (by decide)⟩

/-- C8 as amended: a text is white space, an optional sign, a run of digits and
a rest that does not start with a digit.  `deserializeInt` returns 0 and logs
the failure when there is no digit or when the signed value of the digits is
outside the 32-bit range; otherwise it returns that value, whatever the rest
is.  It is a total function: no error is propagated.  `abc` and the empty text
give 0. -/
theorem deserializeInt_fallback (ws sign ds rest : List Char)
    (hws : ∀ c ∈ ws, isSpace c = true) (hsign : isSignText sign)
    (hds : ∀ c ∈ ds, isDigit c = true)
    (hrest : ∀ c, rest.head? = some c → isDigit c = false)
    (hplain : sign = [] → ds = [] →
      ∀ c, rest.head? = some c → isSpace c = false ∧ c ≠ '-' ∧ c ≠ '+') :
    deserializeInt (ws ++ sign ++ ds ++ rest) =
      (if ds = [] then (0, [Event.stoiInvalid])
       else if isInt32 (signedValue sign ds) then (signedValue sign ds, [])
       else (0, [Event.stoiOutOfRange])) ∧
    deserializeInt "abc".toList = (0, [Event.stoiInvalid]) ∧
    deserializeInt [] = (0, [Event.stoiInvalid]) := by
  refine ⟨?_, by decide, by decide⟩
  unfold deserializeInt
  rw [stoi_parts ws sign ds rest hws hsign hds hrest hplain]
  by_cases h1 : ds = []
  · simp [h1]
  · by_cases h2 : isInt32 (signedValue sign ds) <;> simp [h1, h2]

/-- Witness of the amended C8 at the text `2147483648x` (white space and sign
empty): the value is outside the 32-bit range, the result is 0 with the
out-of-range diagnostic. -/
theorem deserializeInt_fallback_witness :
    (∀ c ∈ ([] : List Char), isSpace c = true) ∧ isSignText [] ∧
    (∀ c ∈ "2147483648".toList, isDigit c = true) ∧
    (∀ c, "x".toList.head? = some c → isDigit c = false) ∧
    ¬ isInt32 (signedValue [] "2147483648".toList) ∧
    deserializeInt ([] ++ [] ++ "2147483648".toList ++ "x".toList) =
      (0, [Event.stoiOutOfRange]) :=
  ⟨by decide, Or.inl rfl, by decide, by simp; decide, by decide,
    ((deserializeInt_fallback [] [] "2147483648".toList "x".toList (by decide) (Or.inl rfl)
      (by decide) (by simp; decide) (by simp)).1).trans (by decide)⟩

/-- Counterexample to C8 as stated: `12abc` is the decimal text of no integer,
yet `deserializeInt` returns 12 for it, not 0, and logs nothing. -/
theorem deserializeInt_trailing_text :
    (∀ v : Int, intText v ≠ "12abc".toList) ∧
    deserializeInt "12abc".toList = (12, []) := by
  refine ⟨?_, by decide⟩
  intro v hv
  have := intText_chars v 'a' (by rw [hv]; decide)
  revert this; decide

/-- C10: on a sink other than `std::cout`, the text `serializePeople` writes to
the sink is the concatenation, in order, of the texts `serializePerson` writes
for each record, with nothing in between or after; the empty sequence writes
nothing. -/
theorem serializePeople_concat (people : List Person) (st : Stream) (hst : st ≠ Stream.cout) :
    (serializePeople people st).map (written st) =
      (serializeEach people st).map (writtenAll st) ∧
    serializePeople [] st = .ok [] := by
  refine ⟨?_, rfl⟩
  have hc : Stream.cout ≠ st := fun e => hst e.symm
  induction people with
  | nil => rfl
  | cons p rest ih =>
    simp only [serializePeople, serializeEach]
    cases hp : serializePerson p st with
    | error e => rfl
    | ok t =>
      simp only []
      cases hr : serializePeople rest st with
      | error e =>
        rw [hr] at ih
        cases hs : serializeEach rest st with
        | error e2 => rw [hs] at ih; simpa [Except.map] using ih
        | ok ts => rw [hs] at ih; simp [Except.map] at ih
      | ok t2 =>
        rw [hr] at ih
        cases hs : serializeEach rest st with
        | error e2 => rw [hs] at ih; simp [Except.map] at ih
        | ok ts =>
          rw [hs] at ih
          simp only [Except.map, Except.ok.injEq] at ih ⊢
          simp [written_append, writtenAll, written, Event.target, hc, ih]

/-- Witness of C10 on the two records of `main` and the file sink: the text is
that of `person1` followed by that of `person2`. -/
theorem serializePeople_concat_witness :
    Stream.sink ≠ Stream.cout ∧
    (serializePeople [person1, person2] Stream.sink).map (written Stream.sink) =
      (serializeEach [person1, person2] Stream.sink).map (writtenAll Stream.sink) ∧
    (serializeEach [person1, person2] Stream.sink).map (writtenAll Stream.sink) =
      .ok ("Lera10G,\n".toList ++ "Vasea12B,\n".toList) :=
  ⟨by decide, (serializePeople_concat [person1, person2] Stream.sink (by decide)).1,
    by decide⟩

/-- C11: for a record whose name holds a `','`, `serializePerson` does not
abort: on a sink other than `std::cerr` it writes none of the name and still
writes the form, the gender tag with its delimiter and the newline, that is
decimal(form), the tag, `,` and the newline; `std::cerr` gets the diagnostic of
`serializeString`. -/
theorem serializePerson_bad_name (p : Person) (name : List Char) (st : Stream)
    (hname : p.name.cString = .ok name) (hcomma : ',' ∈ name) (hst : st ≠ Stream.cerr) :
    ∃ tr, serializePerson p st = .ok tr ∧
      written st tr = intText p.form ++ genderTag p.gender ++ [','] ++ ['\n'] ∧
      written Stream.cerr tr = Event.commaInString.text := by
  refine ⟨_, serializePerson_trace_comma p name st hname hcomma, ?_, ?_⟩
  · rw [written_commaInString st _ hst, written_put, written_put, written_put]
    simp [written]
  · simp [written, Event.target, hst]

/-- Witness of C11 on the record `{ "a,b", 7, Gender::Girl }`: the file sink
receives `7G,` and the newline. -/
theorem serializePerson_bad_name_witness :
    personComma.name.cString = .ok "a,b".toList ∧ ',' ∈ "a,b".toList ∧
    Stream.sink ≠ Stream.cerr ∧
    (∃ tr, serializePerson personComma Stream.sink = .ok tr ∧
      written Stream.sink tr =
        intText personComma.form ++ genderTag personComma.gender ++ [','] ++ ['\n'] ∧
      written Stream.cerr tr = Event.commaInString.text) ∧
    intText personComma.form ++ genderTag personComma.gender ++ [','] ++ ['\n'] =
      "7G,\n".toList :=
  ⟨by decide, by decide, by decide,
    serializePerson_bad_name personComma "a,b".toList Stream.sink (by decide) (by decide)
      (by decide),
    by decide⟩

/-- C12 as amended: for a sequence of `n` records in which every name that is
written (a name without `','`) holds no newline, the text `serializePeople`
writes to a file sink is made of exactly `n` newline-terminated lines: it holds
exactly `n` newlines, and the text of each record holds one newline, as its
last character. -/
theorem serializePeople_lines (people : List Person) (st : Stream)
    (hcout : st ≠ Stream.cout) (hcerr : st ≠ Stream.cerr)
    (hnames : ∀ p ∈ people, ∃ name, p.name.cString = .ok name ∧ ('\n' ∉ name ∨ ',' ∈ name)) :
    (∃ tr lines, serializePeople people st = .ok tr ∧ written st tr = joinLines lines ∧
      lines.length = people.length ∧ (∀ l ∈ lines, '\n' ∉ l) ∧
      (written st tr).count '\n' = people.length) ∧
    (∀ p ∈ people, ∃ t body, serializePerson p st = .ok t ∧
      written st t = body ++ ['\n'] ∧ '\n' ∉ body) := by
  have hc : Stream.cout ≠ st := fun e => hcout e.symm
  constructor
  · suffices h : ∃ tr lines, serializePeople people st = .ok tr ∧
        written st tr = joinLines lines ∧ lines.length = people.length ∧
        (∀ l ∈ lines, '\n' ∉ l) by
      obtain ⟨tr, lines, h1, h2, h3, h4⟩ := h
      exact ⟨tr, lines, h1, h2, h3, h4, by rw [h2, count_joinLines lines h4, h3]⟩
    induction people with
    | nil => exact ⟨[], [], rfl, rfl, rfl, by simp⟩
    | cons p rest ih =>
      obtain ⟨tr, lines, h1, h2, h3, h4⟩ := ih (fun q hq => hnames q (by simp [hq]))
      obtain ⟨name, hname, hnl⟩ := hnames p (by simp)
      obtain ⟨t, body, ht, hw, hb⟩ := serializePerson_line p name st hname hnl hcerr
      refine ⟨t ++ [Event.endl Stream.cout] ++ tr, body :: lines, ?_, ?_, by simp [h3], ?_⟩
      · simp only [serializePeople, ht, h1]
      · rw [written_append, written_append, hw, h2]
        simp [written, Event.target, hc, joinLines]
      · intro l hl
        rcases List.mem_cons.mp hl with rfl | hl
        · exact hb
        · exact h4 l hl
  · intro p hp
    obtain ⟨name, hname, hnl⟩ := hnames p hp
    exact serializePerson_line p name st hname hnl hcerr

/-- Witness of the amended C12 on the two records of `main`. -/
theorem serializePeople_lines_witness :
    Stream.sink ≠ Stream.cout ∧ Stream.sink ≠ Stream.cerr ∧
    (∀ p ∈ [person1, person2],
      ∃ name, p.name.cString = .ok name ∧ ('\n' ∉ name ∨ ',' ∈ name)) ∧
    (∃ tr lines, serializePeople [person1, person2] Stream.sink = .ok tr ∧
      written Stream.sink tr = joinLines lines ∧
      lines.length = [person1, person2].length ∧ (∀ l ∈ lines, '\n' ∉ l) ∧
      (written Stream.sink tr).count '\n' = [person1, person2].length) ∧
    (∀ p ∈ [person1, person2], ∃ t body, serializePerson p Stream.sink = .ok t ∧
      written Stream.sink t = body ++ ['\n'] ∧ '\n' ∉ body) :=
  have hn : ∀ p ∈ [person1, person2],
      ∃ name, p.name.cString = .ok name ∧ ('\n' ∉ name ∨ ',' ∈ name) := by
    intro p hp
    simp only [List.mem_cons, List.mem_singleton, List.not_mem_nil, or_false] at hp
    rcases hp with rfl | rfl
    · exact ⟨"Lera".toList, by decide, Or.inl (by decide)⟩
    · exact ⟨"Vasea".toList, by decide, Or.inl (by decide)⟩
  ⟨by decide, by decide, hn,
    serializePeople_lines [person1, person2] Stream.sink (by decide) (by decide) hn⟩

/-- Counterexample to C12 as stated: the one record `{ "a\nb", 1, Gender::Boy }`
is written as a text with two newlines, the first of them inside the name. -/
theorem serializePeople_newline_in_name :
    personNewline.name.cString = .ok "a\nb".toList ∧
    (serializePeople [personNewline] Stream.sink).map (written Stream.sink) =
      .ok "a\nb1B,\n".toList ∧
    "a\nb1B,\n".toList.count '\n' = 2 ∧ [personNewline].length = 1 := by
  decide

/-- C13: for a line `pre,mid,post` (no `','` in `pre` and `mid`, `pre` of at
most 19 characters) whose `mid` is not parseable by `std::stoi`, `deserialize`
still returns a record: its form is 0, its name array holds `pre` and the
terminator, its gender is decoded from `post` as usual (Boy when `post` starts
with `B`, else Girl), and the failure is logged on `std::cerr`.  The line `Ann,xyz,B,` decodes to (Ann, 0, Boy). -/
theorem deserialize_bad_form (pre mid post : List Char)
    (hpre : ',' ∉ pre) (hmid : ',' ∉ mid) (hlen : pre.length ≤ 19)
    (hbad : ∀ v, stoi mid ≠ .ok v) :
    (∃ p tr, deserialize (pre ++ [','] ++ mid ++ [','] ++ post) = .ok (some p, tr) ∧
      p.form = 0 ∧
      p.name.cells.take (pre.length + 1) = pre.map some ++ [some '\x00'] ∧
      ('\x00' ∉ pre → p.name.cString = .ok pre) ∧
      p.gender = firstCharGender post ∧
      deserializeGender (cStrView post) = .ok p.gender ∧
      (tr = [Event.put Stream.cerr pre, Event.stoiInvalid] ∨
        tr = [Event.put Stream.cerr pre, Event.stoiOutOfRange])) ∧
    (deserialize "Ann,xyz,B,".toList).map
        (fun r => r.1.map (fun p => (p.name.cString, p.form, p.gender))) =
      .ok (some (.ok "Ann".toList, 0, Gender.Boy)) := by
  refine ⟨?_, by decide⟩
  have hlt : pre.length < nameCapacity := by simp [nameCapacity]; omega
  rw [line_two_commas, deserialize_two_commas pre mid post hpre hmid hlt,
    deserializeInt_cStr]
  refine ⟨_, _, rfl, ?_, stored_cells_take pre hlt, stored_cString pre hlt, rfl,
    deserializeGender_cStrView post, ?_⟩
  · rcases deserializeInt_bad mid hbad with h | h <;> simp [h]
  · rcases deserializeInt_bad mid hbad with h | h <;> simp [h]

/-- Witness of C13 at the line `Ann,99999999999,G,`, whose form is out of the
32-bit range. -/
theorem deserialize_bad_form_witness :
    ',' ∉ "Ann".toList ∧ ',' ∉ "99999999999".toList ∧ "Ann".toList.length ≤ 19 ∧
    (∀ v, stoi "99999999999".toList ≠ .ok v) ∧
    ∃ p tr, deserialize ("Ann".toList ++ [','] ++ "99999999999".toList ++ [','] ++
        "G,".toList) = .ok (some p, tr) ∧
      p.form = 0 ∧
      p.name.cells.take ("Ann".toList.length + 1) = "Ann".toList.map some ++ [some '\x00'] ∧
      ('\x00' ∉ "Ann".toList → p.name.cString = .ok "Ann".toList) ∧
      p.gender = firstCharGender "G,".toList ∧
      deserializeGender (cStrView "G,".toList) = .ok p.gender ∧
      (tr = [Event.put Stream.cerr "Ann".toList, Event.stoiInvalid] ∨
        tr = [Event.put Stream.cerr "Ann".toList, Event.stoiOutOfRange]) :=
  have hb : ∀ v, stoi "99999999999".toList ≠ .ok v := by
    have : stoi "99999999999".toList = .error .outOfRange := by decide
    intro v hv
    rw [this] at hv
    cases hv
  ⟨by decide, by decide, by decide, hb,
    (deserialize_bad_form "Ann".toList "99999999999".toList "G,".toList (by decide) (by decide)
      (by decide) hb).1⟩

/-- C14: the text `serializePerson` writes on a stream is what `serializeString`
writes for the name, then what `serializeInt` writes for the form, then what
`serializeGender` writes for the gender, then the newline, with nothing in
between; for a name without `','` this is the name, decimal(form), the tag, `,`
and the newline. -/
theorem serializePerson_composition (p : Person) (name : List Char) (st : Stream)
    (hname : p.name.cString = .ok name) :
    ∃ tr, serializePerson p st = .ok tr ∧
      written st tr = written st (serializeString name st).2 ++
        written st (serializeInt p.form st) ++ written st (serializeGender p.gender st) ++
        ['\n'] ∧
      (',' ∉ name →
        written st tr = name ++ intText p.form ++ genderTag p.gender ++ [','] ++ ['\n']) := by
  have h : serializePerson p st = .ok ((serializeString name st).2 ++
      serializeInt p.form st ++ serializeGender p.gender st ++ [Event.put st ['\n']]) := by
    unfold serializePerson
    rw [hname]
  refine ⟨_, h, ?_, ?_⟩
  · simp [written_append, serializeInt, written, Event.target, Event.text]
  · intro hcomma
    have ht := serializePerson_trace p name st hname hcomma
    rw [h] at ht
    injection ht with ht
    rw [ht, written_put, written_put, written_put, written_put]
    simp [written]

/-- Witness of C14 on `person1` of `main`. -/
theorem serializePerson_composition_witness :
    person1.name.cString = .ok "Lera".toList ∧ ',' ∉ "Lera".toList ∧
    ∃ tr, serializePerson person1 Stream.sink = .ok tr ∧
      written Stream.sink tr = written Stream.sink (serializeString "Lera".toList Stream.sink).2 ++
        written Stream.sink (serializeInt person1.form Stream.sink) ++
        written Stream.sink (serializeGender person1.gender Stream.sink) ++ ['\n'] ∧
      (',' ∉ "Lera".toList →
        written Stream.sink tr =
          "Lera".toList ++ intText person1.form ++ genderTag person1.gender ++ [','] ++ ['\n']) :=
  ⟨by decide, by decide,
    serializePerson_composition person1 "Lera".toList Stream.sink (by decide)⟩

/-- C15: for every 32-bit signed `n`, `serializeInt` writes the decimal text of
`n`, and `deserializeInt` applied to that text returns `n` and logs nothing. -/
theorem deserializeInt_roundtrip (n : Int) (st : Stream) (hn : isInt32 n) :
    written st (serializeInt n st) = intText n ∧
    deserializeInt (written st (serializeInt n st)) = (n, []) := by
  have h : written st (serializeInt n st) = intText n := by
    simp [serializeInt, written, Event.target, Event.text]
  refine ⟨h, ?_⟩
  rw [h]
  simp [deserializeInt, stoi_intText n hn]

/-- Witness of C15 at `INT_MIN`, `INT_MAX`, 0 and -42. -/
theorem deserializeInt_roundtrip_witness :
    isInt32 INT_MIN ∧ isInt32 INT_MAX ∧ isInt32 0 ∧ isInt32 (-42) ∧
    deserializeInt (written Stream.sink (serializeInt INT_MIN Stream.sink)) = (INT_MIN, []) ∧
    deserializeInt (written Stream.sink (serializeInt INT_MAX Stream.sink)) = (INT_MAX, []) ∧
    deserializeInt (written Stream.sink (serializeInt 0 Stream.sink)) = (0, []) ∧
    deserializeInt (written Stream.sink (serializeInt (-42) Stream.sink)) = (-42, []) ∧
    intText INT_MIN = "-2147483648".toList ∧ intText INT_MAX = "2147483647".toList :=
  ⟨by decide, by decide, by decide, by decide,
    (deserializeInt_roundtrip INT_MIN Stream.sink (by decide)).2,
    (deserializeInt_roundtrip INT_MAX Stream.sink (by decide)).2,
    (deserializeInt_roundtrip 0 Stream.sink (by decide)).2,
    (deserializeInt_roundtrip (-42) Stream.sink (by decide)).2,
    by decide, by decide⟩

/-- C16: `serializeGender` writes exactly `B,` for Boy and `G,` for Girl, and
`deserializeGender` applied to the text written for `g` returns `g`, whatever is
stored behind that text. -/
theorem gender_roundtrip (g : Gender) (st : Stream) :
    written st (serializeGender Gender.Boy st) = ['B', ','] ∧
    written st (serializeGender Gender.Girl st) = ['G', ','] ∧
    (∀ next, deserializeGender ⟨written st (serializeGender g st), next⟩ = .ok g) ∧
    deserializeGender (cStrView (written st (serializeGender g st))) = .ok g := by
  refine ⟨?_, ?_, ?_, ?_⟩
  · simp [serializeGender, written, Event.target, Event.text]
  · simp [serializeGender, written, Event.target, Event.text]
  · intro next
    cases g <;>
      simp [serializeGender, written, Event.target, Event.text, deserializeGender,
        StringView.first]
  · rw [deserializeGender_cStrView]
    cases g <;>
      simp [serializeGender, written, Event.target, Event.text, firstCharGender]

/-- C17: for a line with a `','`, the name `deserialize` extracts is the text
before the first `','`; it holds no `','`, so the check through
`serializeString` returns `Success`.  Every record `deserialize` returns has
that comma-free text in its name array, followed by the terminator (read back as
a C string it is that text when the text holds no `'\0'`), and a line is
rejected only when it holds fewer than two `','`. -/
theorem name_check_never_rejects (line : List Char) (h : ',' ∈ line) :
    (∃ commaPos, find line ',' 0 = some commaPos ∧
      substr line 0 (commaPos - 0) = line.takeWhile (· != ',') ∧
      ',' ∉ substr line 0 (commaPos - 0) ∧
      (serializeString (substr line 0 (commaPos - 0)) Stream.cerr).1 =
        StringSerializationError.Success) ∧
    (∀ p tr, deserialize line = .ok (some p, tr) →
      ',' ∉ line.takeWhile (· != ',') ∧
      p.name.cells.take ((line.takeWhile (· != ',')).length + 1) =
        (line.takeWhile (· != ',')).map some ++ [some '\x00'] ∧
      ('\x00' ∉ line.takeWhile (· != ',') →
        p.name.cString = .ok (line.takeWhile (· != ',')))) ∧
    (∀ tr, deserialize line = .ok (none, tr) → line.count ',' < 2) := by
  obtain ⟨hf1, hf2, hf3⟩ := find_first line h
  refine ⟨⟨_, hf1, hf2, by rw [hf2]; exact hf3, ?_⟩, ?_, ?_⟩
  · rw [hf2]
    simp [serializeString, hf3]
  · intro p tr hd
    obtain ⟨pre, post, h1, h2, h3⟩ := split_first line h
    rw [h3]
    by_cases hlt : pre.length < nameCapacity
    · by_cases hp : ',' ∈ post
      · obtain ⟨mid, post2, h4, h5, _⟩ := split_first post hp
        rw [h1, h4, deserialize_two_commas pre mid post2 h2 h5 hlt] at hd
        injection hd with hd
        injection hd with hd _
        injection hd with hd
        subst hd
        exact ⟨h2, stored_cells_take pre hlt, stored_cString pre hlt⟩
      · rw [h1, deserialize_one_comma pre post h2 hp hlt] at hd
        injection hd with hd
        injection hd with hd _
        cases hd
    · rw [h1, deserialize_long pre post h2 (by omega)] at hd
      cases hd
  · intro tr hd
    obtain ⟨pre, post, h1, h2, h3⟩ := split_first line h
    by_cases hlt : pre.length < nameCapacity
    · by_cases hp : ',' ∈ post
      · obtain ⟨mid, post2, h4, h5, _⟩ := split_first post hp
        rw [h1, h4, deserialize_two_commas pre mid post2 h2 h5 hlt] at hd
        injection hd with hd
        injection hd with hd _
        cases hd
      · rw [h1, List.count_append, List.count_eq_zero_of_not_mem h2, List.count_cons_self,
          List.count_eq_zero_of_not_mem hp]
        omega
    · rw [h1, deserialize_long pre post h2 (by omega)] at hd
      cases hd

/-- Witness of C17 on the accepted line `Lera,10,G,` and the rejected line
`Lera10G,`. -/
theorem name_check_never_rejects_witness :
    ',' ∈ "Lera,10,G,".toList ∧
    (∃ commaPos, find "Lera,10,G,".toList ',' 0 = some commaPos ∧
      substr "Lera,10,G,".toList 0 (commaPos - 0) = "Lera,10,G,".toList.takeWhile (· != ',') ∧
      ',' ∉ substr "Lera,10,G,".toList 0 (commaPos - 0) ∧
      (serializeString (substr "Lera,10,G,".toList 0 (commaPos - 0)) Stream.cerr).1 =
        StringSerializationError.Success) ∧
    deserialize "Lera,10,G,".toList =
      .ok (some ⟨NameArray.stored "Lera".toList (by decide), 10, Gender.Girl⟩,
        [Event.put Stream.cerr "Lera".toList]) ∧
    (',' ∉ "Lera,10,G,".toList.takeWhile (· != ',') ∧
      (NameArray.stored "Lera".toList (by decide)).cells.take
          (("Lera,10,G,".toList.takeWhile (· != ',')).length + 1) =
        ("Lera,10,G,".toList.takeWhile (· != ',')).map some ++ [some '\x00'] ∧
      ('\x00' ∉ "Lera,10,G,".toList.takeWhile (· != ',') →
        (NameArray.stored "Lera".toList (by decide)).cString =
          .ok ("Lera,10,G,".toList.takeWhile (· != ',')))) ∧
    ',' ∈ "Lera10G,".toList ∧
    deserialize "Lera10G,".toList = .ok (none, [Event.put Stream.cerr "Lera10G".toList]) ∧
    "Lera10G,".toList.count ',' < 2 :=
  ⟨by decide, (name_check_never_rejects "Lera,10,G,".toList (by decide)).1, by decide,
    (name_check_never_rejects "Lera,10,G,".toList (by decide)).2.1
      ⟨NameArray.stored "Lera".toList (by decide), 10, Gender.Girl⟩
      [Event.put Stream.cerr "Lera".toList] (by decide),
    by decide, by decide,
    (name_check_never_rejects "Lera10G,".toList (by decide)).2.2
      [Event.put Stream.cerr "Lera10G".toList] (by decide)⟩

/-- C18 as amended: for a line whose text `pre` before the first `','` has at
most 19 characters, every index written in the name array (the copied
characters at `0 .. size - 1`, the terminator at `size`) is below 20, the array
then holds `pre` and the terminator, and it reads back as the C string `pre`
when `pre` holds no `'\0'`.  From 20 characters on the terminator index is
outside the array. -/
theorem name_buffer_bounds (pre post : List Char) (hpre : ',' ∉ pre) :
    (pre ++ ',' :: post).takeWhile (· != ',') = pre ∧
    (pre.length ≤ 19 →
      (∀ k, k ≤ pre.length → k < nameCapacity) ∧
      (∃ copied stored, NameArray.uninit.copyFrom 0 pre = .ok copied ∧
        copied.write pre.length '\x00' = .ok stored ∧
        stored.cells = pre.map some ++ some '\x00' :: List.replicate (19 - pre.length) none ∧
        ('\x00' ∉ pre → stored.cString = .ok pre)) ∧
      ∃ r tr, deserialize (pre ++ ',' :: post) = .ok (r, tr)) ∧
    (20 ≤ pre.length →
      ¬ pre.length < nameCapacity ∧
      (∀ a : NameArray, a.write pre.length '\x00' = .error .outOfBounds) ∧
      deserialize (pre ++ ',' :: post) = .error .outOfBounds) := by
  refine ⟨?_, ?_, ?_⟩
  · rw [List.takeWhile_append_of_pos]
    · simp
    · intro x hx
      simp
      intro hxc
      exact hpre (hxc ▸ hx)
  · intro hlen
    have hlt : pre.length < nameCapacity := by simp [nameCapacity]; omega
    obtain ⟨copied, hc, hw⟩ := store_name pre hlt
    refine ⟨fun k hk => by simp [nameCapacity]; omega, ⟨copied, _, hc, hw, ?_, ?_⟩, ?_⟩
    · simp [NameArray.stored, nameCapacity]
    · exact stored_cString pre hlt
    · obtain ⟨r, tr, h⟩ := deserialize_defined pre post hpre hlt
      exact ⟨r, _, h⟩
  · intro hlen
    have hge : nameCapacity ≤ pre.length := by simp [nameCapacity]; omega
    exact ⟨by omega, fun a => write_overflow a _ _ hge, deserialize_long pre post hpre hge⟩

/-- Witness of the amended C18 at 19 letters (the bound) and at 20 letters
(the first length that leaves the array). -/
theorem name_buffer_bounds_witness :
    ',' ∉ List.replicate 19 'a' ∧ (List.replicate 19 'a').length ≤ 19 ∧
    ((∀ k, k ≤ (List.replicate 19 'a').length → k < nameCapacity) ∧
      (∃ copied stored, NameArray.uninit.copyFrom 0 (List.replicate 19 'a') = .ok copied ∧
        copied.write (List.replicate 19 'a').length '\x00' = .ok stored ∧
        stored.cells = (List.replicate 19 'a').map some ++
          some '\x00' :: List.replicate (19 - (List.replicate 19 'a').length) none ∧
        ('\x00' ∉ List.replicate 19 'a' → stored.cString = .ok (List.replicate 19 'a'))) ∧
      ∃ r tr, deserialize (List.replicate 19 'a' ++ ',' :: "1,B".toList) = .ok (r, tr)) ∧
    ',' ∉ List.replicate 20 'a' ∧ 20 ≤ (List.replicate 20 'a').length ∧
    (¬ (List.replicate 20 'a').length < nameCapacity ∧
      (∀ a : NameArray, a.write (List.replicate 20 'a').length '\x00' = .error .outOfBounds) ∧
      deserialize (List.replicate 20 'a' ++ ',' :: "1,B".toList) = .error .outOfBounds) :=
  ⟨by decide, by decide,
    (name_buffer_bounds (List.replicate 19 'a') "1,B".toList (by decide)).2.1 (by decide),
    by decide, by decide,
    (name_buffer_bounds (List.replicate 20 'a') "1,B".toList (by decide)).2.2 (by decide)⟩

/-- Counterexample to C18 as stated: in the line made of `a`, `'\0'`, `b` and
`,1,B` the text before the first `','` has 3 characters, and the stored name
read as a NUL-terminated string is `a`, not that text. -/
theorem name_buffer_embedded_nul :
    "a\x00b,1,B".toList.takeWhile (· != ',') = ['a', '\x00', 'b'] ∧
    ['a', '\x00', 'b'].length ≤ 19 ∧
    (deserialize "a\x00b,1,B".toList).map (fun r => r.1.map (fun p => p.name.cString)) =
      .ok (some (.ok ['a'])) ∧
    ['a'] ≠ ['a', '\x00', 'b'] := by
  decide

/-- C19: for a line with a `','`, the validation call of `deserialize` writes
the text before the first `','` to `std::cerr` and succeeds; whenever
`deserialize` returns (a record or nullopt), its output on `std::cerr` starts
with that text, and it does return when that text has at most 19 characters.
The well-formed line `Lera,10,G,` is decoded and puts `Lera` on `std::cerr`. -/
theorem deserialize_echoes_name (line : List Char) (h : ',' ∈ line) :
    (∃ commaPos, find line ',' 0 = some commaPos ∧
      serializeString (substr line 0 (commaPos - 0)) Stream.cerr =
        (StringSerializationError.Success,
          [Event.put Stream.cerr (line.takeWhile (· != ','))])) ∧
    (∀ r tr, deserialize line = .ok (r, tr) →
      ∃ rest, tr = Event.put Stream.cerr (line.takeWhile (· != ',')) :: rest ∧
        written Stream.cerr tr = line.takeWhile (· != ',') ++ written Stream.cerr rest) ∧
    ((line.takeWhile (· != ',')).length ≤ 19 → ∃ r tr, deserialize line = .ok (r, tr)) ∧
    (∃ p tr, deserialize "Lera,10,G,".toList = .ok (some p, tr) ∧
      written Stream.cerr tr = "Lera".toList) := by
  obtain ⟨hf1, hf2, hf3⟩ := find_first line h
  obtain ⟨pre, post, h1, h2, h3⟩ := split_first line h
  refine ⟨⟨_, hf1, ?_⟩, ?_, ?_, ?_⟩
  · rw [hf2]
    simp [serializeString, hf3]
  · intro r tr hd
    rw [h3]
    by_cases hlt : pre.length < nameCapacity
    · obtain ⟨r2, tr2, h4⟩ := deserialize_defined pre post h2 hlt
      rw [h1, h4] at hd
      injection hd with hd
      injection hd with _ hd
      subst hd
      exact ⟨tr2, rfl, by simp [written, Event.target, Event.text]⟩
    · rw [h1, deserialize_long pre post h2 (by omega)] at hd
      cases hd
  · intro hlen
    rw [h3] at hlen
    have hlt : pre.length < nameCapacity := by simp [nameCapacity]; omega
    obtain ⟨r2, tr2, h4⟩ := deserialize_defined pre post h2 hlt
    exact ⟨r2, _, h1 ▸ h4⟩
  · exact ⟨⟨NameArray.stored "Lera".toList (by decide), 10, Gender.Girl⟩,
      [Event.put Stream.cerr "Lera".toList], by decide, by decide⟩

/-- Witness of C19 on the line `Vasea,12,B,`. -/
theorem deserialize_echoes_name_witness :
    ',' ∈ "Vasea,12,B,".toList ∧
    deserialize "Vasea,12,B,".toList =
      .ok (some ⟨NameArray.stored "Vasea".toList (by decide), 12, Gender.Boy⟩,
        [Event.put Stream.cerr "Vasea".toList]) ∧
    (∃ rest, [Event.put Stream.cerr "Vasea".toList] =
        Event.put Stream.cerr ("Vasea,12,B,".toList.takeWhile (· != ',')) :: rest ∧
      written Stream.cerr [Event.put Stream.cerr "Vasea".toList] =
        "Vasea,12,B,".toList.takeWhile (· != ',') ++ written Stream.cerr rest) ∧
    "Vasea,12,B,".toList.takeWhile (· != ',') = "Vasea".toList :=
  ⟨by decide, by decide,
    (deserialize_echoes_name "Vasea,12,B,".toList (by decide)).2.1
      (some ⟨NameArray.stored "Vasea".toList (by decide), 12, Gender.Boy⟩)
      [Event.put Stream.cerr "Vasea".toList] (by decide),
    by decide⟩

/-- C20: two lines `pre,mid,post1` and `pre,mid,post2` (no `','` in `pre` and
`mid`, `pre` of at most 19 characters) whose texts after the second `','` start
with the same character, or are both empty, give the same result and the same
output.  The lines `a,1,B`, `a,1,B,` and `a,1,Bxyz,,extra` decode to the same
record (a, 1, Boy). -/
theorem deserialize_ignores_tail (pre mid post1 post2 : List Char)
    (hpre : ',' ∉ pre) (hmid : ',' ∉ mid) (hlen : pre.length ≤ 19)
    (hhead : post1.head? = post2.head?) :
    deserialize (pre ++ [','] ++ mid ++ [','] ++ post1) =
      deserialize (pre ++ [','] ++ mid ++ [','] ++ post2) ∧
    (deserialize "a,1,B".toList).map
        (fun r => r.1.map (fun p => (p.name.cString, p.form, p.gender))) =
      .ok (some (.ok "a".toList, 1, Gender.Boy)) ∧
    deserialize "a,1,B,".toList = deserialize "a,1,B".toList ∧
    deserialize "a,1,Bxyz,,extra".toList = deserialize "a,1,B".toList := by
  refine ⟨?_, by decide, by decide, by decide⟩
  have hlt : pre.length < nameCapacity := by simp [nameCapacity]; omega
  rw [line_two_commas, line_two_commas, deserialize_two_commas pre mid post1 hpre hmid hlt,
    deserialize_two_commas pre mid post2 hpre hmid hlt,
    firstCharGender_head post1 post2 hhead]

/-- Witness of C20 at the tails `Bxyz,,extra` and `B`. -/
theorem deserialize_ignores_tail_witness :
    ',' ∉ "a".toList ∧ ',' ∉ "1".toList ∧ "a".toList.length ≤ 19 ∧
    "Bxyz,,extra".toList.head? = "B".toList.head? ∧
    deserialize ("a".toList ++ [','] ++ "1".toList ++ [','] ++ "Bxyz,,extra".toList) =
      deserialize ("a".toList ++ [','] ++ "1".toList ++ [','] ++ "B".toList) :=
  ⟨by decide, by decide, by decide, by decide,
    (deserialize_ignores_tail "a".toList "1".toList "Bxyz,,extra".toList "B".toList
      (by decide) (by decide) (by decide) (by decide)).1⟩

end Lab5
